import Mathlib

/-!
# TreesJS: the general tree and the binary search tree of `src/app.js`

A shallow embedding of the two tree classes of the journal demo
(`GeneralTree`, `BinarySearchTree`) and of their operations, followed by
theorems about them.

Modelling conventions.

* A JavaScript object reference is modelled by the value of the object it
  points to together with, where the code mutates through the reference, the
  path that leads to it from the root of the tree.  The only object graphs the
  classes ever build are trees (a node is linked exactly once, when it is
  created), so no sharing is lost.
* A method that mutates `this` and may `throw` is a function from the state
  before the call to an `Outcome`: the value returned or the error thrown, and
  the state after the call.
* A finite JavaScript number is modelled by the rational it denotes; `===`
  and `<` on finite numbers compare these values exactly (`-0` and `0` denote
  the same value and are `===`).
-/

namespace TreesJS

/-! ## Shared data model -/

/-- An entry record as built by `buildEntry` (src/app.js 372-388): five string fields. -/
structure Entry where
  id : String
  title : String
  mood : String
  content : String
  createdAt : String
deriving DecidableEq

/-- The errors the tree code can raise.  The first three are the `throw new Error(...)`
statements of src/app.js (lines 65, 163, 176); `typeError` is what the runtime raises
when a property of `null` is read. -/
inductive TreeError where
  | notFound
  | invalidArgument
  | duplicateKey
  | typeError
deriving DecidableEq

/-- The effect of a method call: the value returned or the error thrown, and the
state of `this` after the call. -/
structure Outcome (α σ : Type) where
  result : Except TreeError α
  state : σ

/-- A JavaScript number: a finite value, or one of the three non-finite ones. -/
inductive JSNumber where
  | finite (q : ℚ)
  | nan
  | posInf
  | negInf
deriving DecidableEq

/-- The builtin `Number.isFinite` on numbers. -/
def Number.isFinite : JSNumber → Bool
  | .finite _ => true
  | .nan => false
  | .posInf => false
  | .negInf => false

/-! ## Binary search tree (src/app.js 126-278) -/

/-- A value of type `BinaryNode | null` (src/app.js 126-139): either `null`, or a node
with its `key`, `data`, `left` and `right` fields. -/
inductive BinaryNode where
  | null
  | mk (key : ℚ) (data : Entry) (left right : BinaryNode)
deriving DecidableEq

/-- One step of a path in a binary tree: the `left` or the `right` field. -/
inductive Side where
  | L
  | R
deriving DecidableEq

/-- The class `BinarySearchTree` (src/app.js 145-150): fields `root` and `size`. -/
structure BinarySearchTree where
  root : BinaryNode
  size : Nat
deriving DecidableEq

/-- The constructor of `BinarySearchTree`: `root = null`, `size = 0`. -/
def BinarySearchTree.empty : BinarySearchTree := ⟨.null, 0⟩

/-- The key of a node, when the reference is not `null`. -/
def BinaryNode.key? : BinaryNode → Option ℚ
  | .null => none
  | .mk k _ _ _ => some k

/-- The field `right` of a node (`null` has none; the traversals only read it on nodes). -/
def BinaryNode.right : BinaryNode → BinaryNode
  | .null => .null
  | .mk _ _ _ r => r

/-- The field `left` of a node. -/
def BinaryNode.left : BinaryNode → BinaryNode
  | .null => .null
  | .mk _ _ l _ => l

/-- The assignment `node.left = x` (side `L`) or `node.right = x` (side `R`) performed on
the node reached from `root` by `path`; the result is the tree seen from `root` after
the assignment. -/
def BinaryNode.assign : BinaryNode → List Side → Side → BinaryNode → BinaryNode
  | .null, _, _, _ => .null
  | .mk k d _ r, [], .L, x => .mk k d x r
  | .mk k d l _, [], .R, x => .mk k d l x
  | .mk k d l r, .L :: p, s, x => .mk k d (assign l p s x) r
  | .mk k d l r, .R :: p, s, x => .mk k d l (assign r p s x)

/-- The node reached from a node by following a path (`null` when the path leaves the tree). -/
def BinaryNode.follow : BinaryNode → List Side → BinaryNode
  | n, [] => n
  | .null, _ :: _ => .null
  | .mk _ _ l _, .L :: p => l.follow p
  | .mk _ _ _ r, .R :: p => r.follow p

/-- The `while (true)` loop of `BinarySearchTree.insert` (src/app.js 173-192).
`current` is the node the cursor points to and `path` the way to it from the root;
the loop either throws on an equal key, or assigns `newNode` to the first absent child
on the search path and increments `size`, or moves the cursor down. -/
def BinarySearchTree.insertLoop (this : BinarySearchTree) (key : ℚ) (newNode : BinaryNode) :
    BinaryNode → List Side → Outcome (List Side × BinaryNode) BinarySearchTree
  | .null, _ => ⟨.error .typeError, this⟩
  | .mk k _ l r, path =>
    if key = k then
      ⟨.error .duplicateKey, this⟩
    else if key < k then
      match l with
      | .null =>
        ⟨.ok (path ++ [.L], newNode),
          { root := this.root.assign path .L newNode, size := this.size + 1 }⟩
      | .mk _ _ _ _ => insertLoop this key newNode l (path ++ [.L])
    else
      match r with
      | .null =>
        ⟨.ok (path ++ [.R], newNode),
          { root := this.root.assign path .R newNode, size := this.size + 1 }⟩
      | .mk _ _ _ _ => insertLoop this key newNode r (path ++ [.R])

/-- The method `BinarySearchTree.insert(key, entry)` (src/app.js 162-193).  The guard
`!Number.isFinite(key)` is the case split on the key: it holds on the three non-finite
values.  On success the value returned is the new node, given with the path at which it
was linked. -/
def BinarySearchTree.insert (this : BinarySearchTree) (key : JSNumber) (entry : Entry) :
    Outcome (List Side × BinaryNode) BinarySearchTree :=
  match key with
  | .finite q =>
    let newNode := BinaryNode.mk q entry .null .null
    match this.root with
    | .null => ⟨.ok ([], newNode), { root := newNode, size := this.size + 1 }⟩
    | .mk _ _ _ _ => BinarySearchTree.insertLoop this q newNode this.root []
  | .nan => ⟨.error .invalidArgument, this⟩
  | .posInf => ⟨.error .invalidArgument, this⟩
  | .negInf => ⟨.error .invalidArgument, this⟩

/-- The number of nodes below and including a reference. -/
def BinaryNode.count : BinaryNode → Nat
  | .null => 0
  | .mk _ _ l r => l.count + 1 + r.count

/-- The inner loop of `inOrder` (src/app.js 206-209):
`while (current) { stack.push(current); current = current.left; }`.
The head of the list is the top of the stack. -/
def BinaryNode.descendLeft : BinaryNode → List BinaryNode → List BinaryNode
  | .null, stack => stack
  | .mk k d l r, stack => descendLeft l (.mk k d l r :: stack)

/-- The work left for `inOrder` given its stack: every stacked node is still to be
emitted and its right subtree still to be walked. -/
def BinaryNode.pending : List BinaryNode → Nat
  | [] => 0
  | n :: stack => 1 + n.right.count + pending stack

theorem BinaryNode.pending_descendLeft (current : BinaryNode) (stack : List BinaryNode) :
    BinaryNode.pending (current.descendLeft stack) = current.count + BinaryNode.pending stack := by
  induction current generalizing stack with
  | null => simp [BinaryNode.descendLeft, BinaryNode.count]
  | mk k d l r ihl _ =>
    simp [BinaryNode.descendLeft, BinaryNode.count, ihl, BinaryNode.pending, BinaryNode.right]
    omega

/-- The outer loop of `inOrder` (src/app.js 205-213): while `current` is a node or the
stack is not empty, run the inner loop, pop the top of the stack, append it to `result`
and continue with its right child.  (The pop cannot find the stack empty: the guard
has just held and the inner loop pushes `current` when it is a node.) -/
def BinaryNode.inOrderLoop (current : BinaryNode) (stack result : List BinaryNode) :
    List BinaryNode :=
  if current = .null ∧ stack = [] then result
  else
    match h : current.descendLeft stack with
    | [] => result
    | top :: rest => inOrderLoop top.right rest (result ++ [top])
termination_by current.count + BinaryNode.pending stack
decreasing_by
  have hm := BinaryNode.pending_descendLeft current stack
  rw [h] at hm
  simp only [BinaryNode.pending] at hm
  omega

/-- The method `BinarySearchTree.inOrder()` (src/app.js 200-215). -/
def BinarySearchTree.inOrder (this : BinarySearchTree) : List BinaryNode :=
  BinaryNode.inOrderLoop this.root [] []


/-- The guarded push `if (child) stack.push(item)` (src/app.js 229-230, 254-255, 273-274). -/
def pushIf {β : Type} (child : BinaryNode) (item : β) (stack : List β) : List β :=
  match child with
  | .null => stack
  | .mk _ _ _ _ => item :: stack

/-- The `while (stack.length)` loop of `preOrder` (src/app.js 226-231): pop a node, append
it to `result`, push its right child and then its left child when they are nodes. -/
def BinaryNode.preOrderLoop : List BinaryNode → List BinaryNode → List BinaryNode
  | [], result => result
  | node :: stack, result =>
    preOrderLoop (pushIf node.left node.left (pushIf node.right node.right stack))
      (result ++ [node])
termination_by stack => (stack.map (fun n => 2 * n.count + 1)).sum
decreasing_by
  cases node with
  | null => simp [pushIf, BinaryNode.left, BinaryNode.right]
  | mk k d l r =>
    cases l <;> cases r <;>
      simp [pushIf, BinaryNode.left, BinaryNode.right, BinaryNode.count]
    omega

/-- The method `BinarySearchTree.preOrder()` (src/app.js 221-233). -/
def BinarySearchTree.preOrder (this : BinarySearchTree) : List BinaryNode :=
  match this.root with
  | .null => []
  | .mk _ _ _ _ => BinaryNode.preOrderLoop [this.root] []

/-- A stack entry of `postOrder`: `{ node, visited }` (src/app.js 242). -/
structure PostItem where
  node : BinaryNode
  visited : Bool

/-- The work a stack entry of `postOrder` stands for. -/
def PostItem.cost (item : PostItem) : Nat :=
  if item.visited then 1 else 3 * item.node.count + 1

/-- The `while (stack.length)` loop of `postOrder` (src/app.js 244-256): pop an entry; skip
it when its node is `null`; append its node to `result` when it is marked visited;
otherwise push it back marked visited, then its right child and then its left child
when they are nodes, both unvisited. -/
def BinaryNode.postOrderLoop : List PostItem → List BinaryNode → List BinaryNode
  | [], result => result
  | ⟨.null, _⟩ :: stack, result => postOrderLoop stack result
  | ⟨.mk k d l r, true⟩ :: stack, result => postOrderLoop stack (result ++ [.mk k d l r])
  | ⟨.mk k d l r, false⟩ :: stack, result =>
    postOrderLoop
      (pushIf l ⟨l, false⟩ (pushIf r ⟨r, false⟩ (⟨.mk k d l r, true⟩ :: stack)))
      result
termination_by stack => (stack.map PostItem.cost).sum
decreasing_by
  · simp only [List.map_cons, List.sum_cons, PostItem.cost]
    split <;> omega
  · simp [PostItem.cost]
  · cases l <;> cases r <;>
      simp [pushIf, PostItem.cost, BinaryNode.count] <;> omega

/-- The method `BinarySearchTree.postOrder()` (src/app.js 239-259). -/
def BinarySearchTree.postOrder (this : BinarySearchTree) : List BinaryNode :=
  match this.root with
  | .null => []
  | .mk _ _ _ _ => BinaryNode.postOrderLoop [⟨this.root, false⟩] []

/-- A reference to a node of the binary tree: the path that leads to it from the root,
and the node found there. -/
structure BinaryRef where
  path : List Side
  deref : BinaryNode

/-- An element of the result of `asIndented()`: `{ node, depth, side }` (src/app.js 272). -/
structure IndentItem where
  node : BinaryRef
  depth : Nat
  side : String

/-- The `while (stack.length)` loop of `asIndented` (src/app.js 270-275): pop an item,
append it to `result`, push its right child with side `"R"` and then its left child with
side `"L"` when they are nodes, both one level deeper. -/
def BinaryNode.asIndentedLoop : List IndentItem → List IndentItem → List IndentItem
  | [], result => result
  | top :: stack, result =>
    asIndentedLoop
      (pushIf top.node.deref.left
        ⟨⟨top.node.path ++ [.L], top.node.deref.left⟩, top.depth + 1, "L"⟩
        (pushIf top.node.deref.right
          ⟨⟨top.node.path ++ [.R], top.node.deref.right⟩, top.depth + 1, "R"⟩ stack))
      (result ++ [top])
termination_by stack => (stack.map (fun it => 2 * it.node.deref.count + 1)).sum
decreasing_by
  cases hn : top.node.deref with
  | null => simp [pushIf, BinaryNode.left, BinaryNode.right]
  | mk k d l r =>
    cases l <;> cases r <;>
      simp [pushIf, BinaryNode.left, BinaryNode.right, BinaryNode.count, hn]
    omega

/-- The method `BinarySearchTree.asIndented()` (src/app.js 265-277). -/
def BinarySearchTree.asIndented (this : BinarySearchTree) : List IndentItem :=
  match this.root with
  | .null => []
  | .mk _ _ _ _ => BinaryNode.asIndentedLoop [⟨⟨[], this.root⟩, 0, "root"⟩] []

/-- The values returned by the calls of `insert` that succeed in a sequence of calls, in
the order of the calls: each is the new node, with the path at which it was linked. -/
def BinarySearchTree.inserted (this : BinarySearchTree) :
    List (JSNumber × Entry) → List (List Side × BinaryNode)
  | [] => []
  | (key, entry) :: calls =>
    match (this.insert key entry).result with
    | .ok node => node :: (this.insert key entry).state.inserted calls
    | .error _ => (this.insert key entry).state.inserted calls

/-- Calls of `insert` one after the other, each on the state the previous one left
(a call that throws leaves a state too: the caller catches the error and goes on,
src/app.js 513-526). -/
def BinarySearchTree.insertAll (this : BinarySearchTree) :
    List (JSNumber × Entry) → BinarySearchTree
  | [] => this
  | (key, entry) :: calls => (this.insert key entry).state.insertAll calls

/-! ## General tree (src/app.js 12-119) -/

/-- The class `GeneralNode` (src/app.js 12-30): fields `data` and `children`. -/
inductive GeneralNode where
  | mk (data : Entry) (children : List GeneralNode)

/-- The field `data` of a node. -/
def GeneralNode.data : GeneralNode → Entry
  | .mk d _ => d

/-- The field `children` of a node. -/
def GeneralNode.children : GeneralNode → List GeneralNode
  | .mk _ cs => cs

/-- The class `GeneralTree` (src/app.js 36-41): fields `root` (a node or `null`) and `size`. -/
structure GeneralTree where
  root : Option GeneralNode
  size : Nat

/-- The constructor of `GeneralTree`: `root = null`, `size = 0`. -/
def GeneralTree.empty : GeneralTree := ⟨none, 0⟩

/-- A reference to a node of the tree: the path of child indices that leads to it from
the root, and the node found there. -/
structure NodeRef where
  path : List Nat
  deref : GeneralNode

/-- An element of the result of `dfs()`: `{ node, depth }` (src/app.js 110). -/
structure DfsItem where
  node : NodeRef
  depth : Nat

mutual
/-- The number of nodes of the subtree of a node. -/
def GeneralNode.count : GeneralNode → Nat
  | .mk _ cs => 1 + GeneralNode.countList cs
/-- The number of nodes of the subtrees of a sequence of nodes. -/
def GeneralNode.countList : List GeneralNode → Nat
  | [] => 0
  | c :: cs => c.count + GeneralNode.countList cs
end

/-- The loop `for (let i = children.length - 1; i >= 0; i--) stack.push(item(children[i]))`
(src/app.js 91-93 and 113-115), entered with `n = i + 1` indices still to visit.  The head
of the list is the top of the stack. -/
def pushReversed {β : Type} (item : Nat → GeneralNode → β) (children : List GeneralNode) :
    Nat → List β → List β
  | 0, stack => stack
  | i + 1, stack =>
    match children[i]? with
    | some c => pushReversed item children i (item i c :: stack)
    | none => pushReversed item children i stack

/-- The nodes still to be visited by a stack, counted with their subtrees. -/
def stackWeight {β : Type} (w : β → GeneralNode) (stack : List β) : Nat :=
  GeneralNode.countList (stack.map w)

theorem GeneralNode.countList_append (xs ys : List GeneralNode) :
    GeneralNode.countList (xs ++ ys) = GeneralNode.countList xs + GeneralNode.countList ys := by
  induction xs with
  | nil => simp [GeneralNode.countList]
  | cons x xs ih => simp [GeneralNode.countList, ih, Nat.add_assoc]

theorem stackWeight_pushReversed {β : Type} (w : β → GeneralNode) (item : Nat → GeneralNode → β)
    (hw : ∀ i c, w (item i c) = c) (children : List GeneralNode) (n : Nat)
    (stack : List β) :
    stackWeight w (pushReversed item children n stack) =
      GeneralNode.countList (children.take n) + stackWeight w stack := by
  induction n generalizing stack with
  | zero => simp [pushReversed, GeneralNode.countList]
  | succ i ih =>
    unfold pushReversed
    cases hc : children[i]? with
    | none =>
      simp only
      rw [ih, List.take_succ, hc]
      simp
    | some c =>
      simp only
      rw [ih, List.take_succ, hc]
      simp [stackWeight, GeneralNode.countList, GeneralNode.countList_append, hw]
      omega

theorem GeneralNode.countList_take_le (n : Nat) (xs : List GeneralNode) :
    GeneralNode.countList (xs.take n) ≤ GeneralNode.countList xs := by
  induction xs generalizing n with
  | nil => simp
  | cons x xs ih =>
    cases n with
    | zero => simp [GeneralNode.countList]
    | succ n => simp [GeneralNode.countList, ih]

/-- The `while (stack.length)` loop of `findById` (src/app.js 87-94): pop a node, return
it when its entry has the identifier looked for, otherwise push its children, last one
first. -/
def findByIdLoop (id : String) : List NodeRef → Option NodeRef
  | [] => none
  | current :: stack =>
    if current.deref.data.id = id then some current
    else
      findByIdLoop id
        (pushReversed (fun i c => ⟨current.path ++ [i], c⟩) current.deref.children
          current.deref.children.length stack)
termination_by stack => stackWeight NodeRef.deref stack
decreasing_by
  rw [stackWeight_pushReversed NodeRef.deref _ (fun _ _ => rfl)]
  have := GeneralNode.countList_take_le current.deref.children.length current.deref.children
  cases hn : current.deref with
  | mk d cs =>
    simp only [stackWeight, List.map_cons, GeneralNode.countList, hn, GeneralNode.count,
      GeneralNode.children] at this ⊢
    omega

/-- The method `GeneralTree.findById(id)` (src/app.js 83-96). -/
def GeneralTree.findById (this : GeneralTree) (id : String) : Option NodeRef :=
  match this.root with
  | none => none
  | some root => findByIdLoop id [⟨[], root⟩]

/-- The `while (stack.length)` loop of `dfs` (src/app.js 108-116): pop an item, append it
to `result`, push its children, last one first, one level deeper. -/
def dfsLoop : List DfsItem → List DfsItem → List DfsItem
  | [], result => result
  | top :: stack, result =>
    dfsLoop
      (pushReversed (fun i c => ⟨⟨top.node.path ++ [i], c⟩, top.depth + 1⟩) top.node.deref.children
        top.node.deref.children.length stack)
      (result ++ [top])
termination_by stack => stackWeight (fun (it : DfsItem) => it.node.deref) stack
decreasing_by
  rw [stackWeight_pushReversed (fun (it : DfsItem) => it.node.deref) _ (fun _ _ => rfl)]
  have := GeneralNode.countList_take_le top.node.deref.children.length top.node.deref.children
  cases hn : top.node.deref with
  | mk d cs =>
    simp only [stackWeight, List.map_cons, GeneralNode.countList, hn, GeneralNode.count,
      GeneralNode.children] at this ⊢
    omega

/-- The method `GeneralTree.dfs()` (src/app.js 103-118). -/
def GeneralTree.dfs (this : GeneralTree) : List DfsItem :=
  match this.root with
  | none => []
  | some root => dfsLoop [⟨⟨[], root⟩, 0⟩] []

/-- The call `parent.addChild(node)` (src/app.js 27-29) on the node reached from a node by
a path: `children.push(node)` there; the result is the tree seen from the start. -/
def GeneralNode.addChildAt : List Nat → GeneralNode → GeneralNode → GeneralNode
  | [], .mk d cs, x => .mk d (cs ++ [x])
  | i :: p, .mk d cs, x => .mk d (cs.modify (fun c => GeneralNode.addChildAt p c x) i)

/-- The method `GeneralTree.insert(entry, parentId = null)` (src/app.js 54-75).  The test
`if (parentId)` holds for a string that is not empty.  On success the value returned is
the new node, given with the path at which it was linked. -/
def GeneralTree.insert (this : GeneralTree) (entry : Entry) (parentId : Option String) :
    Outcome NodeRef GeneralTree :=
  let node := GeneralNode.mk entry []
  match this.root with
  | none => ⟨.ok ⟨[], node⟩, { root := some node, size := this.size + 1 }⟩
  | some root =>
    let atRoot : Outcome NodeRef GeneralTree :=
      ⟨.ok ⟨[root.children.length], node⟩,
        { root := some (GeneralNode.addChildAt [] root node), size := this.size + 1 }⟩
    match parentId with
    | none => atRoot
    | some pid =>
      if pid ≠ "" then
        match this.findById pid with
        | none => ⟨.error .notFound, this⟩
        | some parent =>
          ⟨.ok ⟨parent.path ++ [parent.deref.children.length], node⟩,
            { root := some (GeneralNode.addChildAt parent.path root node),
              size := this.size + 1 }⟩
      else atRoot


/-- The node reached from a node by a path of child indices, if the path stays in the tree. -/
def GeneralNode.follow : GeneralNode → List Nat → Option GeneralNode
  | n, [] => some n
  | .mk _ cs, i :: p =>
    match cs[i]? with
    | some c => c.follow p
    | none => none

/-- Calls of `GeneralTree.insert` one after the other, each on the state the previous one
left (a call that throws leaves a state too: the caller catches the error and goes on,
src/app.js 498-511). -/
def GeneralTree.insertAll (this : GeneralTree) : List (Entry × Option String) → GeneralTree
  | [] => this
  | (entry, parentId) :: calls => (this.insert entry parentId).state.insertAll calls

/-- The nodes returned by the calls of `insert` that succeed in a sequence of calls, in the
order of the calls. -/
def GeneralTree.inserted (this : GeneralTree) : List (Entry × Option String) → List NodeRef
  | [] => []
  | (entry, parentId) :: calls =>
    match (this.insert entry parentId).result with
    | .ok node => node :: (this.insert entry parentId).state.inserted calls
    | .error _ => (this.insert entry parentId).state.inserted calls

/-- What identifies a node over time: the path at which it is linked, which never changes,
and the entry it holds. -/
def NodeRef.ident (r : NodeRef) : List Nat × Entry := (r.path, r.deref.data)

/-- An entry with a given identifier, for examples. -/
def sampleEntry (id : String) : Entry := ⟨id, "title", "mood", "content", "created"⟩

/-! ### Reference notions for the general tree -/

mutual
/-- The recursive preorder-with-depth reference: the node, then the traversals of its
children, in stored order, one level deeper. -/
def GeneralNode.preorder (path : List Nat) (depth : Nat) : GeneralNode → List DfsItem
  | .mk d cs => ⟨⟨path, .mk d cs⟩, depth⟩ :: GeneralNode.preorderList path depth 0 cs
/-- The traversals of the children of the node at `path`, the first of them having index `i`. -/
def GeneralNode.preorderList (path : List Nat) (depth : Nat) :
    Nat → List GeneralNode → List DfsItem
  | _, [] => []
  | i, c :: cs =>
    c.preorder (path ++ [i]) (depth + 1) ++ GeneralNode.preorderList path depth (i + 1) cs
end

/-- The stack items of a sequence of children, the first of them having index `i`. -/
def itemsFrom {β : Type} (item : Nat → GeneralNode → β) : Nat → List GeneralNode → List β
  | _, [] => []
  | i, c :: cs => item i c :: itemsFrom item (i + 1) cs

/-! ### Reference notions for the binary search tree -/

/-- The recursive in-order reference: left subtree, then the node, then right subtree. -/
def BinaryNode.inOrderRec : BinaryNode → List BinaryNode
  | .null => []
  | .mk k d l r => l.inOrderRec ++ [.mk k d l r] ++ r.inOrderRec

/-- The keys of the nodes of a tree, listed left to right. -/
def BinaryNode.keys : BinaryNode → List ℚ
  | .null => []
  | .mk k _ l r => l.keys ++ [k] ++ r.keys

/-- The ordering invariant of a binary search tree: at every node, the keys of the left
subtree are strictly less than the node's key and the keys of the right subtree are
strictly greater. -/
def BinaryNode.Ordered : BinaryNode → Prop
  | .null => True
  | .mk k _ l r => (∀ x ∈ l.keys, x < k) ∧ (∀ x ∈ r.keys, k < x) ∧ l.Ordered ∧ r.Ordered

/-- Whether a key is met by the search that starts at a node: equal to the node's key, or
met further down, to the left when it is less and to the right otherwise. -/
def BinaryNode.onSearchPath (key : ℚ) : BinaryNode → Prop
  | .null => False
  | .mk k _ l r => key = k ∨ (if key < k then l.onSearchPath key else r.onSearchPath key)

/-- The standard recursive insertion: a leaf in place of `null`; otherwise into the left
subtree when the key is less, into the right one when it is greater, and nothing when
it is equal. -/
def BinaryNode.insertRec (key : ℚ) (entry : Entry) : BinaryNode → BinaryNode
  | .null => .mk key entry .null .null
  | .mk k d l r =>
    if key = k then .mk k d l r
    else if key < k then .mk k d (l.insertRec key entry) r
    else .mk k d l (r.insertRec key entry)

/-- The path from a node to the first absent child met by the search for a key. -/
def BinaryNode.slot (key : ℚ) : BinaryNode → List Side
  | .null => []
  | .mk k _ l r => if key < k then .L :: l.slot key else .R :: r.slot key

/-- The tree in which the subtree at a path has been replaced. -/
def BinaryNode.graft : BinaryNode → List Side → BinaryNode → BinaryNode
  | _, [], x => x
  | .null, _ :: _, _ => .null
  | .mk k d l r, .L :: p, x => .mk k d (l.graft p x) r
  | .mk k d l r, .R :: p, x => .mk k d l (r.graft p x)

/-- The states a `BinarySearchTree` can be in: the freshly constructed one and every
state left by a call of `insert`, whether it returned or threw. -/
inductive BinarySearchTree.Reachable : BinarySearchTree → Prop where
  | empty : Reachable BinarySearchTree.empty
  | insert {t : BinarySearchTree} (key : JSNumber) (entry : Entry) :
      Reachable t → Reachable (t.insert key entry).state

/-- What the stack of `inOrder` still owes: each stacked node, then its right subtree. -/
def BinaryNode.owed (stack : List BinaryNode) : List BinaryNode :=
  stack.flatMap (fun n => n :: n.right.inOrderRec)


/-- The recursive pre-order reference: the node, then left subtree, then right subtree. -/
def BinaryNode.preOrderRec : BinaryNode → List BinaryNode
  | .null => []
  | .mk k d l r => [.mk k d l r] ++ l.preOrderRec ++ r.preOrderRec

/-- The recursive post-order reference: left subtree, then right subtree, then the node. -/
def BinaryNode.postOrderRec : BinaryNode → List BinaryNode
  | .null => []
  | .mk k d l r => l.postOrderRec ++ r.postOrderRec ++ [.mk k d l r]

/-- The recursive reference of the indented view: the node with its depth and side, then
the left subtree with side `"L"`, then the right subtree with side `"R"`, both one level
deeper. -/
def BinaryNode.indentRec (path : List Side) (depth : Nat) (side : String) :
    BinaryNode → List IndentItem
  | .null => []
  | .mk k d l r =>
    [⟨⟨path, .mk k d l r⟩, depth, side⟩] ++ l.indentRec (path ++ [.L]) (depth + 1) "L" ++
      r.indentRec (path ++ [.R]) (depth + 1) "R"

/-- What the stack of `preOrder` still owes: each stacked node, then its two subtrees. -/
def BinaryNode.owedPre (stack : List BinaryNode) : List BinaryNode :=
  stack.flatMap (fun n => n :: (n.left.preOrderRec ++ n.right.preOrderRec))

/-- What a stack entry of `postOrder` still owes: nothing for `null`, the node for a
visited entry, the whole post-order of the node for an unvisited one. -/
def PostItem.owed : PostItem → List BinaryNode
  | ⟨.null, _⟩ => []
  | ⟨.mk k d l r, true⟩ => [.mk k d l r]
  | ⟨.mk k d l r, false⟩ => (BinaryNode.mk k d l r).postOrderRec

/-- What a stack item of `asIndented` still owes: the item, then the two subtrees of its
node. -/
def IndentItem.owed (it : IndentItem) : List IndentItem :=
  it :: (it.node.deref.left.indentRec (it.node.path ++ [.L]) (it.depth + 1) "L" ++
    it.node.deref.right.indentRec (it.node.path ++ [.R]) (it.depth + 1) "R")

/-- The states a `GeneralTree` can be in: the freshly constructed one and every state left
by a call of `insert`, whether it returned or threw. -/
inductive GeneralTree.Reachable : GeneralTree → Prop where
  | empty : Reachable GeneralTree.empty
  | insert {t : GeneralTree} (entry : Entry) (parentId : Option String) :
      Reachable t → Reachable (t.insert entry parentId).state

/-- The key and the entry of a node, when the reference is not `null`. -/
def BinaryNode.binding? : BinaryNode → Option (ℚ × Entry)
  | .null => none
  | .mk k d _ _ => some (k, d)

/-- The keys of the nodes of a tree with the entries they hold, listed left to right. -/
def BinaryNode.bindings : BinaryNode → List (ℚ × Entry)
  | .null => []
  | .mk k d l r => l.bindings ++ [(k, d)] ++ r.bindings

/-! ## Lemmas on the binary search tree -/

theorem BinaryNode.graft_append (root : BinaryNode) (p s : List Side) (x : BinaryNode) :
    root.graft (p ++ s) x = root.graft p ((root.follow p).graft s x) := by
  induction p generalizing root with
  | nil => simp [BinaryNode.graft, BinaryNode.follow]
  | cons a p ih =>
    cases root with
    | null => simp [BinaryNode.graft]
    | mk k d l r => cases a <;> simp [BinaryNode.graft, BinaryNode.follow, ih]

theorem BinaryNode.assign_eq_graft (root : BinaryNode) (p : List Side) (s : Side)
    (x : BinaryNode) (h : root.follow p ≠ .null) :
    root.assign p s x = root.graft (p ++ [s]) x := by
  induction p generalizing root with
  | nil =>
    cases root with
    | null => simp [BinaryNode.follow] at h
    | mk k d l r => cases s <;> simp [BinaryNode.assign, BinaryNode.graft]
  | cons a p ih =>
    cases root with
    | null => simp [BinaryNode.follow] at h
    | mk k d l r =>
      cases a <;> simp [BinaryNode.follow] at h <;> simp [BinaryNode.assign, BinaryNode.graft, ih _ h]

theorem BinaryNode.graft_slot (key : ℚ) (entry : Entry) (cur : BinaryNode)
    (h : ¬ cur.onSearchPath key) :
    cur.graft (cur.slot key) (.mk key entry .null .null) = cur.insertRec key entry := by
  induction cur with
  | null => simp [BinaryNode.slot, BinaryNode.graft, BinaryNode.insertRec]
  | mk k d l r ihl ihr =>
    simp only [BinaryNode.onSearchPath, not_or] at h
    obtain ⟨hne, hrest⟩ := h
    by_cases hlt : key < k
    · simp only [hlt, if_true] at hrest
      simp [BinaryNode.slot, BinaryNode.graft, BinaryNode.insertRec, hne, hlt, ihl hrest]
    · simp only [hlt, if_false] at hrest
      simp [BinaryNode.slot, BinaryNode.graft, BinaryNode.insertRec, hne, hlt, ihr hrest]

theorem BinaryNode.follow_append (root : BinaryNode) (p s : List Side) :
    root.follow (p ++ s) = (root.follow p).follow s := by
  induction p generalizing root with
  | nil => simp [BinaryNode.follow]
  | cons a p ih =>
    cases root with
    | null => cases s <;> simp [BinaryNode.follow]
    | mk k d l r => cases a <;> simp [BinaryNode.follow, ih]

/-- The loop throws `duplicateKey`, leaving the state as it was, when the key is met on
the search path of the cursor. -/
theorem BinarySearchTree.insertLoop_dup (this : BinarySearchTree) (key : ℚ) (newNode : BinaryNode)
    (cur : BinaryNode) (p : List Side) (h : cur.onSearchPath key) :
    BinarySearchTree.insertLoop this key newNode cur p = ⟨.error .duplicateKey, this⟩ := by
  induction cur generalizing p with
  | null => simp [BinaryNode.onSearchPath] at h
  | mk k d l r ihl ihr =>
    unfold BinarySearchTree.insertLoop
    by_cases heq : key = k
    · simp [heq]
    · simp only [BinaryNode.onSearchPath, heq, false_or] at h
      simp only [heq, if_false]
      by_cases hlt : key < k
      · simp only [hlt, if_true] at h ⊢
        cases l with
        | null => simp [BinaryNode.onSearchPath] at h
        | mk k2 d2 l2 r2 => exact ihl _ h
      · simp only [hlt, if_false] at h ⊢
        cases r with
        | null => simp [BinaryNode.onSearchPath] at h
        | mk k2 d2 l2 r2 => exact ihr _ h

/-- The loop links the new node at the slot of the key, counted from the cursor,
when the key is not met on the search path of the cursor. -/
theorem BinarySearchTree.insertLoop_ok (this : BinarySearchTree) (key : ℚ) (newNode : BinaryNode)
    (cur : BinaryNode) (p : List Side) (hcur : this.root.follow p = cur) (hne : cur ≠ .null)
    (h : ¬ cur.onSearchPath key) :
    BinarySearchTree.insertLoop this key newNode cur p =
      ⟨.ok (p ++ cur.slot key, newNode),
        { root := this.root.graft (p ++ cur.slot key) newNode, size := this.size + 1 }⟩ := by
  induction cur generalizing p with
  | null => exact absurd rfl hne
  | mk k d l r ihl ihr =>
    unfold BinarySearchTree.insertLoop
    simp only [BinaryNode.onSearchPath, not_or] at h
    obtain ⟨heq, hrest⟩ := h
    simp only [heq, if_false]
    have hp : this.root.follow p ≠ .null := by rw [hcur]; simp
    by_cases hlt : key < k
    · simp only [hlt, if_true] at hrest ⊢
      cases l with
      | null =>
        simp [BinaryNode.slot, hlt, BinaryNode.assign_eq_graft _ _ _ _ hp]
      | mk k2 d2 l2 r2 =>
        have hf : this.root.follow (p ++ [Side.L]) = .mk k2 d2 l2 r2 := by
          rw [BinaryNode.follow_append, hcur]; simp [BinaryNode.follow]
        have := ihl (p ++ [Side.L]) hf (by simp) hrest
        simp only [this]
        simp [BinaryNode.slot, hlt]
    · simp only [hlt, if_false] at hrest ⊢
      cases r with
      | null =>
        simp [BinaryNode.slot, hlt, BinaryNode.assign_eq_graft _ _ _ _ hp]
      | mk k2 d2 l2 r2 =>
        have hf : this.root.follow (p ++ [Side.R]) = .mk k2 d2 l2 r2 := by
          rw [BinaryNode.follow_append, hcur]; simp [BinaryNode.follow]
        have := ihr (p ++ [Side.R]) hf (by simp) hrest
        simp only [this]
        simp [BinaryNode.slot, hlt]

theorem BinarySearchTree.insert_dup (this : BinarySearchTree) (q : ℚ) (entry : Entry)
    (h : this.root.onSearchPath q) :
    this.insert (.finite q) entry = ⟨.error .duplicateKey, this⟩ := by
  unfold BinarySearchTree.insert
  cases hr : this.root with
  | null => rw [hr] at h; simp [BinaryNode.onSearchPath] at h
  | mk k d l r =>
    simp only
    rw [← hr]
    exact BinarySearchTree.insertLoop_dup this q _ this.root [] h

theorem BinarySearchTree.insert_ok (this : BinarySearchTree) (q : ℚ) (entry : Entry)
    (h : ¬ this.root.onSearchPath q) :
    this.insert (.finite q) entry =
      ⟨.ok (this.root.slot q, .mk q entry .null .null),
        { root := this.root.insertRec q entry, size := this.size + 1 }⟩ := by
  unfold BinarySearchTree.insert
  cases hr : this.root with
  | null => simp [BinaryNode.slot, BinaryNode.insertRec]
  | mk k d l r =>
    simp only
    rw [← hr]
    have hne : this.root ≠ .null := by rw [hr]; simp
    have hf : this.root.follow [] = this.root := by cases this.root <;> rfl
    rw [BinarySearchTree.insertLoop_ok this q _ this.root [] hf hne h]
    simp only [List.nil_append]
    rw [← BinaryNode.graft_slot q entry this.root h]

theorem BinaryNode.mem_keys_insertRec (q : ℚ) (entry : Entry) (t : BinaryNode) (x : ℚ) :
    x ∈ (t.insertRec q entry).keys ↔ x = q ∨ x ∈ t.keys := by
  induction t with
  | null => simp [BinaryNode.insertRec, BinaryNode.keys]
  | mk k d l r ihl ihr =>
    unfold BinaryNode.insertRec
    by_cases heq : q = k
    · simp only [heq, if_true]
      simp only [BinaryNode.keys, List.mem_append, List.mem_singleton]
      tauto
    · simp only [heq, if_false]
      by_cases hlt : q < k
      · simp only [hlt, if_true, BinaryNode.keys, List.mem_append, List.mem_singleton, ihl]
        tauto
      · simp only [hlt, if_false, BinaryNode.keys, List.mem_append, List.mem_singleton, ihr]
        tauto

theorem BinaryNode.ordered_insertRec (q : ℚ) (entry : Entry) (t : BinaryNode)
    (h : t.Ordered) : (t.insertRec q entry).Ordered := by
  induction t with
  | null => simp [BinaryNode.insertRec, BinaryNode.Ordered, BinaryNode.keys]
  | mk k d l r ihl ihr =>
    obtain ⟨hl, hr, hol, hor⟩ := h
    unfold BinaryNode.insertRec
    by_cases heq : q = k
    · simp only [heq, if_true]
      exact ⟨hl, hr, hol, hor⟩
    · simp only [heq, if_false]
      by_cases hlt : q < k
      · simp only [hlt, if_true]
        refine ⟨?_, hr, ihl hol, hor⟩
        intro x hx
        rcases (BinaryNode.mem_keys_insertRec q entry l x).1 hx with hx | hx
        · rw [hx]; exact hlt
        · exact hl x hx
      · simp only [hlt, if_false]
        refine ⟨hl, ?_, hol, ihr hor⟩
        intro x hx
        rcases (BinaryNode.mem_keys_insertRec q entry r x).1 hx with hx | hx
        · rw [hx]; exact lt_of_le_of_ne (not_lt.1 hlt) (Ne.symm heq)
        · exact hr x hx

theorem BinaryNode.onSearchPath_iff_mem_keys (q : ℚ) (t : BinaryNode) (h : t.Ordered) :
    t.onSearchPath q ↔ q ∈ t.keys := by
  induction t with
  | null => simp [BinaryNode.onSearchPath, BinaryNode.keys]
  | mk k d l r ihl ihr =>
    obtain ⟨hl, hr, hol, hor⟩ := h
    simp only [BinaryNode.onSearchPath, BinaryNode.keys, List.mem_append, List.mem_singleton]
    by_cases heq : q = k
    · simp [heq]
    · by_cases hlt : q < k
      · simp only [hlt, if_true, ihl hol, heq, false_or, or_false]
        constructor
        · intro hm; exact Or.inl hm
        · rintro (hm | hm)
          · exact hm
          · exact absurd (hr q hm) (not_lt.2 (le_of_lt hlt))
      · simp only [hlt, if_false, ihr hor, heq, false_or, or_false]
        constructor
        · intro hm; exact Or.inr hm
        · rintro (hm | hm)
          · exact absurd (hl q hm) hlt
          · exact hm

theorem BinaryNode.keys_sorted (t : BinaryNode) (h : t.Ordered) :
    t.keys.Pairwise (· < ·) := by
  induction t with
  | null => simp [BinaryNode.keys]
  | mk k d l r ihl ihr =>
    obtain ⟨hl, hr, hol, hor⟩ := h
    simp only [BinaryNode.keys, List.append_assoc, List.singleton_append]
    rw [List.pairwise_append]
    refine ⟨ihl hol, ?_, ?_⟩
    · rw [List.pairwise_cons]
      exact ⟨hr, ihr hor⟩
    · intro a ha b hb
      rcases List.mem_cons.1 hb with hb | hb
      · rw [hb]; exact hl a ha
      · exact lt_trans (hl a ha) (hr b hb)

theorem BinaryNode.inOrderRec_keys (t : BinaryNode) :
    t.inOrderRec.filterMap BinaryNode.key? = t.keys := by
  induction t with
  | null => simp [BinaryNode.inOrderRec, BinaryNode.keys]
  | mk k d l r ihl ihr =>
    simp [BinaryNode.inOrderRec, BinaryNode.keys, List.filterMap_append, ihl, ihr, BinaryNode.key?]

theorem BinaryNode.null_not_mem_inOrderRec (t : BinaryNode) : BinaryNode.null ∉ t.inOrderRec := by
  induction t with
  | null => simp [BinaryNode.inOrderRec]
  | mk k d l r ihl ihr => simp [BinaryNode.inOrderRec, ihl, ihr]

theorem BinaryNode.owed_descendLeft (current : BinaryNode) (stack : List BinaryNode) :
    BinaryNode.owed (current.descendLeft stack) = current.inOrderRec ++ BinaryNode.owed stack := by
  induction current generalizing stack with
  | null => simp [BinaryNode.descendLeft, BinaryNode.inOrderRec]
  | mk k d l r ihl _ =>
    rw [BinaryNode.descendLeft, ihl]
    simp [BinaryNode.inOrderRec, BinaryNode.owed, BinaryNode.right]

theorem BinaryNode.inOrderLoop_eq (current : BinaryNode) (stack result : List BinaryNode) :
    BinaryNode.inOrderLoop current stack result =
      result ++ current.inOrderRec ++ BinaryNode.owed stack := by
  induction current, stack, result using BinaryNode.inOrderLoop.induct with
  | case1 current stack result hdone =>
    rw [BinaryNode.inOrderLoop, if_pos hdone]
    obtain ⟨hc, hs⟩ := hdone
    simp [hc, hs, BinaryNode.inOrderRec, BinaryNode.owed]
  | case2 current stack result hgo hd =>
    rw [BinaryNode.inOrderLoop, if_neg hgo]
    have ho := BinaryNode.owed_descendLeft current stack
    rw [hd] at ho
    simp only [BinaryNode.owed, List.flatMap_nil] at ho
    split
    · simp [BinaryNode.owed, ← ho]
    · rename_i top rest heq
      rw [hd] at heq
      cases heq
  | case3 current stack result hgo top rest hd ih =>
    rw [BinaryNode.inOrderLoop, if_neg hgo]
    have ho := BinaryNode.owed_descendLeft current stack
    rw [hd] at ho
    split
    · rename_i heq
      rw [hd] at heq
      cases heq
    · rename_i top2 rest2 heq
      rw [hd] at heq
      cases heq
      have hgoal : result ++ current.inOrderRec ++ BinaryNode.owed stack =
          result ++ BinaryNode.owed (top :: rest) := by rw [ho, List.append_assoc]
      rw [ih, hgoal]
      simp [BinaryNode.owed]

theorem BinarySearchTree.inOrder_eq (this : BinarySearchTree) :
    this.inOrder = this.root.inOrderRec := by
  simp [BinarySearchTree.inOrder, BinaryNode.inOrderLoop_eq, BinaryNode.owed]

theorem BinarySearchTree.Reachable.ordered {t : BinarySearchTree} (h : t.Reachable) :
    t.root.Ordered := by
  induction h with
  | empty => simp [BinarySearchTree.empty, BinaryNode.Ordered]
  | @insert t key entry _ ih =>
    cases key with
    | finite q =>
      by_cases hp : t.root.onSearchPath q
      · rw [BinarySearchTree.insert_dup t q entry hp]; exact ih
      · rw [BinarySearchTree.insert_ok t q entry hp]
        exact BinaryNode.ordered_insertRec q entry t.root ih
    | nan => exact ih
    | posInf => exact ih
    | negInf => exact ih

theorem BinaryNode.keys_insertRec_perm (q : ℚ) (entry : Entry) (t : BinaryNode)
    (h : ¬ t.onSearchPath q) : (t.insertRec q entry).keys.Perm (q :: t.keys) := by
  induction t with
  | null => simp [BinaryNode.insertRec, BinaryNode.keys]
  | mk k d l r ihl ihr =>
    simp only [BinaryNode.onSearchPath, not_or] at h
    obtain ⟨heq, hrest⟩ := h
    unfold BinaryNode.insertRec
    simp only [heq, if_false]
    by_cases hlt : q < k
    · simp only [hlt, if_true] at hrest ⊢
      simp only [BinaryNode.keys, List.append_assoc]
      exact ((ihl hrest).append_right _).trans (by simp)
    · simp only [hlt, if_false] at hrest ⊢
      simp only [BinaryNode.keys, List.append_assoc]
      have h1 : (l.keys ++ ([k] ++ (r.insertRec q entry).keys)).Perm
          (l.keys ++ ([k] ++ q :: r.keys)) :=
        List.Perm.append_left _ (List.Perm.append_left _ (ihr hrest))
      refine h1.trans ?_
      have h2 : (l.keys ++ ([k] ++ q :: r.keys)) = (l.keys ++ [k]) ++ q :: r.keys := by simp
      rw [h2]
      refine List.perm_middle.trans ?_
      simp

theorem BinaryNode.follow_slot (q : ℚ) (t : BinaryNode) : t.follow (t.slot q) = .null := by
  induction t with
  | null => simp [BinaryNode.slot, BinaryNode.follow]
  | mk k d l r ihl ihr =>
    by_cases hlt : q < k <;> simp [BinaryNode.slot, hlt, BinaryNode.follow, ihl, ihr]

theorem BinaryNode.follow_insertRec_slot (q : ℚ) (entry : Entry) (t : BinaryNode)
    (h : ¬ t.onSearchPath q) :
    (t.insertRec q entry).follow (t.slot q) = .mk q entry .null .null := by
  induction t with
  | null => simp [BinaryNode.slot, BinaryNode.follow, BinaryNode.insertRec]
  | mk k d l r ihl ihr =>
    simp only [BinaryNode.onSearchPath, not_or] at h
    obtain ⟨heq, hrest⟩ := h
    by_cases hlt : q < k
    · simp only [hlt, if_true] at hrest
      simp [BinaryNode.slot, hlt, heq, BinaryNode.follow, BinaryNode.insertRec, ihl hrest]
    · simp only [hlt, if_false] at hrest
      simp [BinaryNode.slot, hlt, heq, BinaryNode.follow, BinaryNode.insertRec, ihr hrest]

theorem BinaryNode.follow_insertRec_keep (q : ℚ) (entry : Entry) (p : List Side) :
    ∀ (t : BinaryNode) (k : ℚ) (d : Entry) (l r : BinaryNode), t.follow p = .mk k d l r →
      ∃ l2 r2, (t.insertRec q entry).follow p = .mk k d l2 r2 := by
  induction p with
  | nil =>
    intro t k d l r h
    have ht : t = .mk k d l r := by
      cases t with
      | null => simp [BinaryNode.follow] at h
      | mk k0 d0 l0 r0 => simpa [BinaryNode.follow] using h
    subst ht
    unfold BinaryNode.insertRec
    by_cases heq : q = k
    · exact ⟨l, r, by simp [heq, BinaryNode.follow]⟩
    · by_cases hlt : q < k
      · exact ⟨l.insertRec q entry, r, by simp [heq, hlt, BinaryNode.follow]⟩
      · exact ⟨l, r.insertRec q entry, by simp [heq, hlt, BinaryNode.follow]⟩
  | cons a p ih =>
    intro t k d l r h
    cases t with
    | null => simp [BinaryNode.follow] at h
    | mk k0 d0 l0 r0 =>
      unfold BinaryNode.insertRec
      by_cases heq : q = k0
      · exact ⟨l, r, by simpa [heq] using h⟩
      · by_cases hlt : q < k0
        · cases a with
          | L =>
            obtain ⟨l2, r2, h2⟩ := ih l0 k d l r (by simpa [BinaryNode.follow] using h)
            exact ⟨l2, r2, by simpa [heq, hlt, BinaryNode.follow] using h2⟩
          | R => exact ⟨l, r, by simpa [heq, hlt, BinaryNode.follow] using h⟩
        · cases a with
          | L => exact ⟨l, r, by simpa [heq, hlt, BinaryNode.follow] using h⟩
          | R =>
            obtain ⟨l2, r2, h2⟩ := ih r0 k d l r (by simpa [BinaryNode.follow] using h)
            exact ⟨l2, r2, by simpa [heq, hlt, BinaryNode.follow] using h2⟩

/-- Along the slot of a key the search meets only nodes with another key, and goes left
exactly where the key is less. -/
theorem BinaryNode.slot_descends (q : ℚ) (t : BinaryNode) (h : ¬ t.onSearchPath q) :
    ∀ (p : List Side) (s : Side) (rest : List Side), t.slot q = p ++ s :: rest →
      ∃ k d l r, t.follow p = .mk k d l r ∧ q ≠ k ∧ (s = Side.L ↔ q < k) ∧
        (s = Side.R ↔ k < q) := by
  induction t with
  | null => intro p s rest hs; simp [BinaryNode.slot] at hs
  | mk k d l r ihl ihr =>
    simp only [BinaryNode.onSearchPath, not_or] at h
    obtain ⟨heq, hrest⟩ := h
    intro p s rest hs
    by_cases hlt : q < k
    · simp only [hlt, if_true] at hrest
      simp only [BinaryNode.slot, hlt, if_true] at hs
      cases p with
      | nil =>
        simp only [List.nil_append, List.cons.injEq] at hs
        refine ⟨k, d, l, r, by simp [BinaryNode.follow], heq, ?_, ?_⟩
        · simp [← hs.1, hlt]
        · simp [← hs.1, not_lt.2 (le_of_lt hlt)]
      | cons a p =>
        simp only [List.cons_append, List.cons.injEq] at hs
        obtain ⟨ha, hs⟩ := hs
        subst ha
        simpa [BinaryNode.follow] using ihl hrest p s rest hs
    · simp only [hlt, if_false] at hrest
      simp only [BinaryNode.slot, hlt, if_false] at hs
      have hgt : k < q := lt_of_le_of_ne (not_lt.1 hlt) (Ne.symm heq)
      cases p with
      | nil =>
        simp only [List.nil_append, List.cons.injEq] at hs
        refine ⟨k, d, l, r, by simp [BinaryNode.follow], heq, ?_, ?_⟩
        · simp [← hs.1, hlt]
        · simp [← hs.1, hgt]
      | cons a p =>
        simp only [List.cons_append, List.cons.injEq] at hs
        obtain ⟨ha, hs⟩ := hs
        subst ha
        simpa [BinaryNode.follow] using ihr hrest p s rest hs

theorem BinarySearchTree.Reachable.insertAll {t : BinarySearchTree} (h : t.Reachable)
    (calls : List (JSNumber × Entry)) : (t.insertAll calls).Reachable := by
  induction calls generalizing t with
  | nil => exact h
  | cons c calls ih =>
    obtain ⟨key, entry⟩ := c
    exact ih (BinarySearchTree.Reachable.insert key entry h)

/-- Inserting keys that are distinct and not yet in an ordered tree adds exactly these
keys. -/
theorem BinarySearchTree.insertAll_keys_perm (calls : List (ℚ × Entry)) :
    ∀ (t : BinarySearchTree), t.root.Ordered → (calls.map Prod.fst).Nodup →
      (∀ q ∈ calls.map Prod.fst, q ∉ t.root.keys) →
      (t.insertAll (calls.map (fun c => (JSNumber.finite c.1, c.2)))).root.keys.Perm
        (t.root.keys ++ calls.map Prod.fst) := by
  induction calls with
  | nil => intro t _ _ _; simp [BinarySearchTree.insertAll]
  | cons c calls ih =>
    intro t hord hnd hnew
    obtain ⟨q, entry⟩ := c
    simp only [List.map_cons, List.nodup_cons] at hnd
    have hq : ¬ t.root.onSearchPath q := by
      rw [BinaryNode.onSearchPath_iff_mem_keys q t.root hord]
      exact hnew q (by simp)
    simp only [List.map_cons, BinarySearchTree.insertAll]
    rw [BinarySearchTree.insert_ok t q entry hq]
    have hperm := BinaryNode.keys_insertRec_perm q entry t.root hq
    have := ih ⟨t.root.insertRec q entry, t.size + 1⟩
      (BinaryNode.ordered_insertRec q entry t.root hord) hnd.2 (by
        intro x hx hmem
        rcases (BinaryNode.mem_keys_insertRec q entry t.root x).1 hmem with hxq | hxt
        · subst hxq; exact hnd.1 hx
        · exact hnew x (by simp [List.mem_map] at hx ⊢; exact Or.inr hx) hxt)
    refine this.trans ?_
    refine (hperm.append_right _).trans ?_
    simp only [List.cons_append]
    exact List.perm_middle.symm

/-! ## Theorems on the binary search tree -/

/-- C1: for every sequence of `insert` calls with distinct finite keys applied to an empty
tree, in any order, `inOrder()` returns nodes (no `null`), one for each key inserted, and
their keys are in strictly ascending order. -/
theorem C1_inOrder_strictly_ascending (calls : List (ℚ × Entry))
    (hdistinct : (calls.map Prod.fst).Nodup) :
    BinaryNode.null ∉
        (BinarySearchTree.empty.insertAll
          (calls.map (fun c => (JSNumber.finite c.1, c.2)))).inOrder ∧
      ((BinarySearchTree.empty.insertAll
          (calls.map (fun c => (JSNumber.finite c.1, c.2)))).inOrder.filterMap
            BinaryNode.key?).Pairwise (· < ·) ∧
      ((BinarySearchTree.empty.insertAll
          (calls.map (fun c => (JSNumber.finite c.1, c.2)))).inOrder.filterMap
            BinaryNode.key?).Perm (calls.map Prod.fst) := by
  have hreach := BinarySearchTree.Reachable.insertAll BinarySearchTree.Reachable.empty
    (calls.map (fun c => (JSNumber.finite c.1, c.2)))
  rw [BinarySearchTree.inOrder_eq, BinaryNode.inOrderRec_keys]
  refine ⟨BinaryNode.null_not_mem_inOrderRec _, BinaryNode.keys_sorted _ hreach.ordered, ?_⟩
  have := BinarySearchTree.insertAll_keys_perm calls BinarySearchTree.empty
    (by simp [BinarySearchTree.empty, BinaryNode.Ordered]) hdistinct
    (by simp [BinarySearchTree.empty, BinaryNode.keys])
  simpa [BinarySearchTree.empty, BinaryNode.keys] using this

theorem C1_inOrder_strictly_ascending_witness :
    ([((50 : ℚ), (⟨"b1", "Key 50", "Calma", "x", "t"⟩ : Entry)),
        (25, ⟨"b2", "Key 25", "Calma", "x", "t"⟩)].map Prod.fst).Nodup ∧
      ((BinarySearchTree.empty.insertAll
          ([((50 : ℚ), (⟨"b1", "Key 50", "Calma", "x", "t"⟩ : Entry)),
            (25, ⟨"b2", "Key 25", "Calma", "x", "t"⟩)].map
              (fun c => (JSNumber.finite c.1, c.2)))).inOrder.filterMap
            BinaryNode.key?).Pairwise (· < ·) :=
  ⟨by decide, (C1_inOrder_strictly_ascending _ (by decide)).2.1⟩

/-- C2: the ordering invariant holds in every tree reachable from the empty
`BinarySearchTree` by calls of `insert`, successful or failing: at every node the keys
of the left subtree are strictly less than the node's key and those of the right subtree
strictly greater, and no two nodes share a key. -/
theorem C2_reachable_ordered (t : BinarySearchTree) (h : t.Reachable) :
    t.root.Ordered ∧ t.root.keys.Nodup := by
  refine ⟨h.ordered, ?_⟩
  exact (BinaryNode.keys_sorted _ h.ordered).imp (fun hab => ne_of_lt hab)

theorem C2_reachable_ordered_witness :
    (BinarySearchTree.empty.insertAll
        [(.finite 50, sampleEntry "b1"), (.finite 25, sampleEntry "b2"),
          (.finite 50, sampleEntry "b3"), (.nan, sampleEntry "b4"),
          (.finite 75, sampleEntry "b5")]).Reachable ∧
      (BinarySearchTree.empty.insertAll
        [(.finite 50, sampleEntry "b1"), (.finite 25, sampleEntry "b2"),
          (.finite 50, sampleEntry "b3"), (.nan, sampleEntry "b4"),
          (.finite 75, sampleEntry "b5")]).root.keys = [25, 50, 75] ∧
      (BinarySearchTree.empty.insertAll
        [(.finite 50, sampleEntry "b1"), (.finite 25, sampleEntry "b2"),
          (.finite 50, sampleEntry "b3"), (.nan, sampleEntry "b4"),
          (.finite 75, sampleEntry "b5")]).root.Ordered ∧
      (BinarySearchTree.empty.insertAll
        [(.finite 50, sampleEntry "b1"), (.finite 25, sampleEntry "b2"),
          (.finite 50, sampleEntry "b3"), (.nan, sampleEntry "b4"),
          (.finite 75, sampleEntry "b5")]).root.keys.Nodup :=
  ⟨BinarySearchTree.Reachable.insertAll BinarySearchTree.Reachable.empty _, rfl,
    C2_reachable_ordered _
      (BinarySearchTree.Reachable.insertAll BinarySearchTree.Reachable.empty _)⟩

/-- C3: on a tree built from the empty tree by calls of `insert`, `insert(key, entry)` with
a finite key throws the duplicate-key error exactly when the key is the key of some node
of the tree; when it throws, the state (root, hence shape, keys and entries, and size) is
the state before the call. -/
theorem C3_duplicate_key (t : BinarySearchTree) (h : t.Reachable) (q : ℚ) (entry : Entry) :
    ((t.insert (.finite q) entry).result = .error .duplicateKey ↔ q ∈ t.root.keys) ∧
      ((t.insert (.finite q) entry).result = .error .duplicateKey →
        (t.insert (.finite q) entry).state = t) := by
  by_cases hp : t.root.onSearchPath q
  · have hm := (BinaryNode.onSearchPath_iff_mem_keys q t.root h.ordered).1 hp
    rw [BinarySearchTree.insert_dup t q entry hp]
    simp [hm]
  · have hm : q ∉ t.root.keys := fun hm =>
      hp ((BinaryNode.onSearchPath_iff_mem_keys q t.root h.ordered).2 hm)
    rw [BinarySearchTree.insert_ok t q entry hp]
    simp [hm]

theorem C3_duplicate_key_witness :
    (BinarySearchTree.empty.insert (.finite 50) ⟨"b1", "Key 50", "Calma", "x", "t"⟩).state.Reachable ∧
      (((BinarySearchTree.empty.insert (.finite 50)
          ⟨"b1", "Key 50", "Calma", "x", "t"⟩).state.insert (.finite 50)
            ⟨"b2", "again", "", "y", "t"⟩).result = .error .duplicateKey ↔
        (50 : ℚ) ∈ (BinarySearchTree.empty.insert (.finite 50)
          ⟨"b1", "Key 50", "Calma", "x", "t"⟩).state.root.keys) :=
  ⟨BinarySearchTree.Reachable.insert _ _ BinarySearchTree.Reachable.empty,
    (C3_duplicate_key _
      (BinarySearchTree.Reachable.insert _ _ BinarySearchTree.Reachable.empty) 50
      ⟨"b2", "again", "", "y", "t"⟩).1⟩

/-- C4: for every tree, empty or not, and every key that is not a finite number,
`insert(key, entry)` throws the invalid-argument error and the state (root and size) is
the state before the call. -/
theorem C4_non_finite_key (t : BinarySearchTree) (key : JSNumber) (entry : Entry)
    (h : Number.isFinite key = false) :
    t.insert key entry = ⟨.error .invalidArgument, t⟩ := by
  cases key with
  | finite q => simp [Number.isFinite] at h
  | nan => rfl
  | posInf => rfl
  | negInf => rfl

theorem C4_non_finite_key_witness :
    Number.isFinite JSNumber.nan = false ∧
      BinarySearchTree.empty.insert JSNumber.nan ⟨"b1", "Key", "Calma", "x", "t"⟩ =
        ⟨.error .invalidArgument, BinarySearchTree.empty⟩ :=
  ⟨rfl, C4_non_finite_key _ _ _ rfl⟩

/-- C5: when `insert(key, entry)` with a finite key does not throw, the tree it leaves is
the one the standard recursive insertion gives: on an empty tree the new node is the root;
otherwise the search goes left where the key is less and right where it is greater, and
the new node is linked at the first absent child met; the new node is a leaf holding the
key and the entry and is the value returned; `size` grows by exactly one; every node that
was there keeps its key, entry and position. -/
theorem C5_insert_refines_recursive (t : BinarySearchTree) (q : ℚ) (entry : Entry)
    (hok : ∃ v, (t.insert (.finite q) entry).result = .ok v) :
    (t.insert (.finite q) entry).state.root = t.root.insertRec q entry ∧
      (t.root = .null →
        (t.insert (.finite q) entry).state.root = .mk q entry .null .null) ∧
      (∃ path,
        (t.insert (.finite q) entry).result = .ok (path, .mk q entry .null .null) ∧
        t.root.follow path = .null ∧
        (t.insert (.finite q) entry).state.root.follow path = .mk q entry .null .null ∧
        (∀ (p : List Side) (s : Side) (rest : List Side), path = p ++ s :: rest →
          ∃ k d l r, t.root.follow p = .mk k d l r ∧ q ≠ k ∧ (s = Side.L ↔ q < k) ∧
            (s = Side.R ↔ k < q))) ∧
      (t.insert (.finite q) entry).state.size = t.size + 1 ∧
      (∀ (p : List Side) (k : ℚ) (d : Entry) (l r : BinaryNode),
        t.root.follow p = .mk k d l r →
          ∃ l2 r2, (t.insert (.finite q) entry).state.root.follow p = .mk k d l2 r2) := by
  have hp : ¬ t.root.onSearchPath q := by
    intro hp
    obtain ⟨v, hv⟩ := hok
    rw [BinarySearchTree.insert_dup t q entry hp] at hv
    cases hv
  rw [BinarySearchTree.insert_ok t q entry hp]
  refine ⟨rfl, ?_, ?_, rfl, ?_⟩
  · intro hnull
    simp [hnull, BinaryNode.insertRec]
  · exact ⟨t.root.slot q, rfl, BinaryNode.follow_slot q t.root,
      BinaryNode.follow_insertRec_slot q entry t.root hp,
      BinaryNode.slot_descends q t.root hp⟩
  · intro p k d l r hf
    exact BinaryNode.follow_insertRec_keep q entry p t.root k d l r hf

theorem C5_insert_refines_recursive_witness :
    (∃ v, ((BinarySearchTree.mk
        (.mk 50 (sampleEntry "b1") (.mk 25 (sampleEntry "b2") .null .null)
          (.mk 75 (sampleEntry "b3") .null .null)) 3).insert (.finite 60)
            (sampleEntry "b4")).result = .ok v) ∧
      ((BinarySearchTree.mk
        (.mk 50 (sampleEntry "b1") (.mk 25 (sampleEntry "b2") .null .null)
          (.mk 75 (sampleEntry "b3") .null .null)) 3).insert (.finite 60)
            (sampleEntry "b4")).result =
        .ok ([Side.R, Side.L], .mk 60 (sampleEntry "b4") .null .null) ∧
      ((BinarySearchTree.mk
        (.mk 50 (sampleEntry "b1") (.mk 25 (sampleEntry "b2") .null .null)
          (.mk 75 (sampleEntry "b3") .null .null)) 3).insert (.finite 60)
            (sampleEntry "b4")).state.root =
        .mk 50 (sampleEntry "b1") (.mk 25 (sampleEntry "b2") .null .null)
          (.mk 75 (sampleEntry "b3") (.mk 60 (sampleEntry "b4") .null .null) .null) ∧
      ((BinarySearchTree.mk
        (.mk 50 (sampleEntry "b1") (.mk 25 (sampleEntry "b2") .null .null)
          (.mk 75 (sampleEntry "b3") .null .null)) 3).insert (.finite 60)
            (sampleEntry "b4")).state.size = 3 + 1 :=
  ⟨⟨_, rfl⟩, rfl,
    (C5_insert_refines_recursive
      (BinarySearchTree.mk
        (.mk 50 (sampleEntry "b1") (.mk 25 (sampleEntry "b2") .null .null)
          (.mk 75 (sampleEntry "b3") .null .null)) 3) 60 (sampleEntry "b4")
      ⟨_, rfl⟩).1.trans rfl,
    (C5_insert_refines_recursive
      (BinarySearchTree.mk
        (.mk 50 (sampleEntry "b1") (.mk 25 (sampleEntry "b2") .null .null)
          (.mk 75 (sampleEntry "b3") .null .null)) 3) 60 (sampleEntry "b4")
      ⟨_, rfl⟩).2.2.2.1⟩

/-! ## Lemmas on the general tree -/

theorem itemsFrom_append {β : Type} (item : Nat → GeneralNode → β) (i : Nat)
    (xs ys : List GeneralNode) :
    itemsFrom item i (xs ++ ys) = itemsFrom item i xs ++ itemsFrom item (i + xs.length) ys := by
  induction xs generalizing i with
  | nil => simp [itemsFrom]
  | cons x xs ih =>
    rw [List.cons_append, itemsFrom, itemsFrom, ih, List.length_cons,
      show i + 1 + xs.length = i + (xs.length + 1) by omega, List.cons_append]

theorem pushReversed_take {β : Type} (item : Nat → GeneralNode → β)
    (children : List GeneralNode) (n : Nat) (hn : n ≤ children.length) (stack : List β) :
    pushReversed item children n stack = itemsFrom item 0 (children.take n) ++ stack := by
  induction n generalizing stack with
  | zero => simp [pushReversed, itemsFrom]
  | succ i ih =>
    have hi : i < children.length := hn
    have hc : children[i]? = some children[i] := List.getElem?_eq_getElem hi
    unfold pushReversed
    rw [hc]
    simp only
    rw [ih (Nat.le_of_lt hi), List.take_succ, hc, itemsFrom_append]
    simp [itemsFrom, List.length_take, Nat.min_eq_left (Nat.le_of_lt hi)]

/-- The reversed push loop leaves the children on the stack first child on top. -/
theorem pushReversed_eq {β : Type} (item : Nat → GeneralNode → β)
    (children : List GeneralNode) (stack : List β) :
    pushReversed item children children.length stack = itemsFrom item 0 children ++ stack := by
  rw [pushReversed_take item children children.length (Nat.le_refl _), List.take_length]

theorem GeneralNode.preorderList_eq (path : List Nat) (depth i : Nat) (cs : List GeneralNode) :
    GeneralNode.preorderList path depth i cs =
      (itemsFrom (fun j c => (⟨⟨path ++ [j], c⟩, depth + 1⟩ : DfsItem)) i cs).flatMap
        (fun it => it.node.deref.preorder it.node.path it.depth) := by
  induction cs generalizing i with
  | nil => simp [GeneralNode.preorderList, itemsFrom]
  | cons c cs ih => simp [GeneralNode.preorderList, itemsFrom, ih]

theorem dfsLoop_eq (stack result : List DfsItem) :
    dfsLoop stack result =
      result ++ stack.flatMap (fun it => it.node.deref.preorder it.node.path it.depth) := by
  induction stack, result using dfsLoop.induct with
  | case1 result => simp [dfsLoop]
  | case2 top stack result ih =>
    rw [dfsLoop, ih, pushReversed_eq]
    obtain ⟨⟨path, node⟩, depth⟩ := top
    cases node with
    | mk d cs =>
      simp [GeneralNode.children, GeneralNode.preorder, GeneralNode.preorderList_eq]

/-- The result of `dfs()` is the recursive preorder of the root at depth 0. -/
theorem GeneralTree.dfs_eq (t : GeneralTree) :
    t.dfs = match t.root with
      | none => []
      | some root => root.preorder [] 0 := by
  unfold GeneralTree.dfs
  cases t.root with
  | none => rfl
  | some root => simp [dfsLoop_eq]

/-- The references of the recursive preorder do not depend on the depth it starts at. -/
theorem GeneralNode.preorderList_refs (path : List Nat) (depth i : Nat) (cs : List GeneralNode) :
    GeneralNode.preorderList path depth i cs =
      (itemsFrom (fun j c => (⟨path ++ [j], c⟩ : NodeRef)) i cs).flatMap
        (fun r => r.deref.preorder r.path (depth + 1)) := by
  induction cs generalizing i with
  | nil => simp [GeneralNode.preorderList, itemsFrom]
  | cons c cs ih => simp [GeneralNode.preorderList, itemsFrom, ih]

mutual
/-- Induction on a node of the general tree: a property that holds of a node whenever it
holds of its children holds of every node. -/
theorem GeneralNode.induction {P : GeneralNode → Prop}
    (h : ∀ d cs, (∀ c ∈ cs, P c) → P (.mk d cs)) : ∀ n, P n
  | .mk d cs => h d cs (GeneralNode.induction_list h cs)
theorem GeneralNode.induction_list {P : GeneralNode → Prop}
    (h : ∀ d cs, (∀ c ∈ cs, P c) → P (.mk d cs)) : ∀ cs : List GeneralNode, ∀ c ∈ cs, P c
  | [] => fun _ hc => absurd hc (List.not_mem_nil _)
  | c :: cs => fun x hx =>
    (List.mem_cons.1 hx).elim (fun e => e ▸ GeneralNode.induction h c)
      (fun hm => GeneralNode.induction_list h cs x hm)
end

theorem GeneralNode.preorderList_map_node (path : List Nat) (d1 d2 : Nat)
    (cs : List GeneralNode)
    (ih : ∀ c ∈ cs, ∀ (p : List Nat) (a b : Nat),
      (c.preorder p a).map DfsItem.node = (c.preorder p b).map DfsItem.node) (i : Nat) :
    (GeneralNode.preorderList path d1 i cs).map DfsItem.node =
      (GeneralNode.preorderList path d2 i cs).map DfsItem.node := by
  induction cs generalizing i with
  | nil => simp [GeneralNode.preorderList]
  | cons c cs ihc =>
    simp only [GeneralNode.preorderList, List.map_append]
    rw [ih c (List.mem_cons_self _ _) _ (d1 + 1) (d2 + 1),
      ihc (fun x hx => ih x (List.mem_cons_of_mem _ hx))]

/-- The references listed by the recursive preorder do not depend on the starting depth. -/
theorem GeneralNode.preorder_map_node (n : GeneralNode) :
    ∀ (p : List Nat) (a b : Nat),
      (n.preorder p a).map DfsItem.node = (n.preorder p b).map DfsItem.node := by
  induction n using GeneralNode.induction with
  | h d cs ih =>
    intro p a b
    simp only [GeneralNode.preorder, List.map_cons]
    rw [GeneralNode.preorderList_map_node p a b cs ih 0]

theorem findByIdLoop_eq (id : String) (stack : List NodeRef) :
    findByIdLoop id stack =
      (stack.flatMap (fun r => (r.deref.preorder r.path 0).map DfsItem.node)).find?
        (fun r => decide (r.deref.data.id = id)) := by
  induction stack using findByIdLoop.induct id with
  | case1 => simp [findByIdLoop]
  | case2 current stack hid =>
    rw [findByIdLoop, if_pos hid]
    obtain ⟨path, node⟩ := current
    cases node with
    | mk d cs =>
      simp only [GeneralNode.data] at hid
      simp [GeneralNode.preorder, List.find?_cons, GeneralNode.data, hid]
  | case3 current stack hid ih =>
    rw [findByIdLoop, if_neg hid, ih, pushReversed_eq]
    obtain ⟨path, node⟩ := current
    cases node with
    | mk d cs =>
      simp only [GeneralNode.data] at hid
      have hl : (GeneralNode.preorderList path 0 0 cs).map DfsItem.node =
          (itemsFrom (fun j c => (⟨path ++ [j], c⟩ : NodeRef)) 0 cs).flatMap
            (fun r => (r.deref.preorder r.path 0).map DfsItem.node) := by
        rw [GeneralNode.preorderList_refs, List.map_flatMap]
        congr 1
        funext r
        exact GeneralNode.preorder_map_node _ _ _ _
      simp only [List.flatMap_append, List.flatMap_cons, GeneralNode.children,
        GeneralNode.preorder, List.map_cons, List.find?_cons, GeneralNode.data, hid,
        decide_False, hl, List.cons_append]

/-- The method `findById` returns the first reference, in the order of `dfs()`, to a node
whose entry has the identifier looked for. -/
theorem GeneralTree.findById_eq (t : GeneralTree) (id : String) :
    t.findById id =
      (t.dfs.map DfsItem.node).find? (fun r => decide (r.deref.data.id = id)) := by
  rw [GeneralTree.dfs_eq]
  unfold GeneralTree.findById
  cases t.root with
  | none => simp
  | some root => simp [findByIdLoop_eq]

theorem GeneralNode.follow_nil (n : GeneralNode) : n.follow [] = some n := by
  cases n; rfl

theorem GeneralNode.follow_cons (d : Entry) (cs : List GeneralNode) (i : Nat) (p : List Nat) :
    (GeneralNode.mk d cs).follow (i :: p) = (cs[i]?).bind (fun c => c.follow p) := by
  rw [GeneralNode.follow]
  cases cs[i]? <;> rfl

theorem GeneralNode.follow_path_append (p q : List Nat) :
    ∀ n : GeneralNode, n.follow (p ++ q) = (n.follow p).bind (fun m => m.follow q) := by
  induction p with
  | nil => intro n; simp [GeneralNode.follow_nil]
  | cons i p ih =>
    intro n
    cases n with
    | mk d cs =>
      rw [List.cons_append, GeneralNode.follow_cons, GeneralNode.follow_cons]
      cases cs[i]? with
      | none => rfl
      | some c => simp [ih c]

theorem GeneralNode.mem_preorderList (path : List Nat) (depth : Nat) (cs : List GeneralNode)
    (ih : ∀ c ∈ cs, ∀ (p : List Nat) (a : Nat) (it : DfsItem), it ∈ c.preorder p a ↔
      ∃ q, it.node.path = p ++ q ∧ c.follow q = some it.node.deref ∧ it.depth = a + q.length)
    (i : Nat) (it : DfsItem) :
    it ∈ GeneralNode.preorderList path depth i cs ↔
      ∃ j c q, cs[j]? = some c ∧ it.node.path = path ++ (i + j) :: q ∧
        c.follow q = some it.node.deref ∧ it.depth = depth + 1 + q.length := by
  induction cs generalizing i with
  | nil => simp [GeneralNode.preorderList]
  | cons c cs ihc =>
    simp only [GeneralNode.preorderList, List.mem_append]
    rw [ih c (List.mem_cons_self _ _), ihc (fun x hx => ih x (List.mem_cons_of_mem _ hx))]
    constructor
    · rintro (⟨q, hp, hf, hd⟩ | ⟨j, c2, q, hj, hp, hf, hd⟩)
      · exact ⟨0, c, q, by simp, by simpa using hp, hf, hd⟩
      · refine ⟨j + 1, c2, q, by simpa using hj, ?_, hf, hd⟩
        rw [hp, show i + 1 + j = i + (j + 1) by omega]
    · rintro ⟨j, c2, q, hj, hp, hf, hd⟩
      cases j with
      | zero =>
        simp only [List.getElem?_cons_zero, Option.some.injEq] at hj
        subst hj
        exact Or.inl ⟨q, by simpa using hp, hf, hd⟩
      | succ j =>
        refine Or.inr ⟨j, c2, q, by simpa using hj, ?_, hf, hd⟩
        rw [hp, show i + 1 + j = i + (j + 1) by omega]

/-- The items of the recursive preorder are the nodes reached from the start by a path,
each with that path and with the depth the path gives. -/
theorem GeneralNode.mem_preorder (n : GeneralNode) :
    ∀ (p : List Nat) (a : Nat) (it : DfsItem), it ∈ n.preorder p a ↔
      ∃ q, it.node.path = p ++ q ∧ n.follow q = some it.node.deref ∧
        it.depth = a + q.length := by
  induction n using GeneralNode.induction with
  | h d cs ih =>
    intro p a it
    simp only [GeneralNode.preorder, List.mem_cons]
    rw [GeneralNode.mem_preorderList p a cs ih 0 it]
    constructor
    · rintro (rfl | ⟨j, c, q, hj, hp, hf, hd⟩)
      · exact ⟨[], by simp, GeneralNode.follow_nil _, by simp⟩
      · refine ⟨j :: q, by simpa using hp, ?_, ?_⟩
        · rw [GeneralNode.follow_cons, hj]; exact hf
        · rw [hd, List.length_cons]; omega
    · rintro ⟨q, hp, hf, hd⟩
      cases q with
      | nil =>
        left
        rw [GeneralNode.follow_nil] at hf
        obtain ⟨⟨ipath, ideref⟩, idepth⟩ := it
        simp only [List.append_nil, Option.some.injEq, List.length_nil, Nat.add_zero] at hp hf hd
        subst hp hf hd
        rfl
      | cons j q =>
        right
        rw [GeneralNode.follow_cons] at hf
        cases hj : cs[j]? with
        | none => rw [hj] at hf; simp at hf
        | some c =>
          rw [hj] at hf
          refine ⟨j, c, q, hj, by simpa using hp, hf, ?_⟩
          rw [hd, List.length_cons]; omega

/-- The items of `dfs()` are the nodes of the tree, each once per path that reaches it,
with the length of the path as depth. -/
theorem GeneralTree.mem_dfs (t : GeneralTree) (root : GeneralNode) (hroot : t.root = some root)
    (it : DfsItem) :
    it ∈ t.dfs ↔ root.follow it.node.path = some it.node.deref ∧
      it.depth = it.node.path.length := by
  rw [GeneralTree.dfs_eq, hroot]
  simp only
  rw [GeneralNode.mem_preorder]
  constructor
  · rintro ⟨q, hp, hf, hd⟩
    simp only [List.nil_append] at hp
    subst hp
    exact ⟨hf, by simpa using hd⟩
  · rintro ⟨hf, hd⟩
    exact ⟨it.node.path, by simp, hf, by simpa using hd⟩

/-- What `addChild` at a path keeps: every node stays at its path with its entry; the
node at the path gets the new child appended, the others keep their number of children. -/
theorem GeneralNode.follow_addChildAt_keep (x : GeneralNode) (q : List Nat) :
    ∀ (p : List Nat) (root n : GeneralNode), root.follow q = some n →
      ∃ n2, (GeneralNode.addChildAt p root x).follow q = some n2 ∧ n2.data = n.data ∧
        (q ≠ p → n2.children.length = n.children.length) ∧
        (q = p → n2.children = n.children ++ [x]) := by
  induction q with
  | nil =>
    intro p root n hf
    rw [GeneralNode.follow_nil] at hf
    cases hf
    cases root with
    | mk d cs =>
      cases p with
      | nil =>
        exact ⟨_, GeneralNode.follow_nil _, by simp [GeneralNode.addChildAt, GeneralNode.data],
          by simp, by simp [GeneralNode.addChildAt, GeneralNode.children]⟩
      | cons i p =>
        exact ⟨_, GeneralNode.follow_nil _, by simp [GeneralNode.addChildAt, GeneralNode.data],
          by simp [GeneralNode.addChildAt, GeneralNode.children], by simp⟩
  | cons j q ih =>
    intro p root n hf
    cases root with
    | mk d cs =>
      rw [GeneralNode.follow_cons] at hf
      cases hj : cs[j]? with
      | none => rw [hj] at hf; simp at hf
      | some c =>
        rw [hj] at hf
        simp only [Option.some_bind] at hf
        cases p with
        | nil =>
          have hlt : j < cs.length := by
            by_contra hge
            rw [List.getElem?_eq_none (by omega)] at hj
            cases hj
          refine ⟨n, ?_, rfl, fun _ => rfl, by simp⟩
          rw [GeneralNode.addChildAt, GeneralNode.follow_cons,
            List.getElem?_append_left hlt, hj]
          exact hf
        | cons i p =>
          by_cases hij : i = j
          · subst hij
            obtain ⟨n2, h1, h2, h3, h4⟩ := ih p c n hf
            refine ⟨n2, ?_, h2, ?_, ?_⟩
            · rw [GeneralNode.addChildAt, GeneralNode.follow_cons, List.getElem?_modify_eq, hj]
              exact h1
            · intro hne
              exact h3 (fun e => hne (by rw [e]))
            · intro he
              exact h4 (List.cons.inj he).2
          · refine ⟨n, ?_, rfl, fun _ => rfl, ?_⟩
            · rw [GeneralNode.addChildAt, GeneralNode.follow_cons,
                List.getElem?_modify_ne _ _ hij, hj]
              exact hf
            · intro he
              exact absurd (List.cons.inj he).1.symm hij

/-- What `addChild` at a path adds: a path in the new tree is a path of the old tree or
passes through the new child. -/
theorem GeneralNode.follow_addChildAt_new (x : GeneralNode) (q : List Nat) :
    ∀ (p : List Nat) (root parent n2 : GeneralNode), root.follow p = some parent →
      (GeneralNode.addChildAt p root x).follow q = some n2 →
      (∃ n, root.follow q = some n) ∨
        ∃ q2, q = p ++ parent.children.length :: q2 ∧ x.follow q2 = some n2 := by
  induction q with
  | nil =>
    intro p root parent n2 _ _
    exact Or.inl ⟨root, GeneralNode.follow_nil _⟩
  | cons j q ih =>
    intro p root parent n2 hp hf
    cases root with
    | mk d cs =>
      cases p with
      | nil =>
        rw [GeneralNode.follow_nil] at hp
        cases hp
        rw [GeneralNode.addChildAt, GeneralNode.follow_cons] at hf
        rcases Nat.lt_trichotomy j cs.length with hlt | heq | hgt
        · rw [List.getElem?_append_left hlt] at hf
          exact Or.inl ⟨n2, by rw [GeneralNode.follow_cons]; exact hf⟩
        · subst heq
          rw [List.getElem?_append_right (Nat.le_refl _)] at hf
          simp only [Nat.sub_self, List.getElem?_cons_zero, Option.some_bind] at hf
          exact Or.inr ⟨q, by simp [GeneralNode.children], hf⟩
        · rw [List.getElem?_eq_none (by simp; omega)] at hf
          simp at hf
      | cons i p =>
        rw [GeneralNode.follow_cons] at hp
        cases hi : cs[i]? with
        | none => rw [hi] at hp; simp at hp
        | some c0 =>
          rw [hi] at hp
          simp only [Option.some_bind] at hp
          rw [GeneralNode.addChildAt, GeneralNode.follow_cons] at hf
          by_cases hij : i = j
          · subst hij
            rw [List.getElem?_modify_eq, hi] at hf
            simp only [Option.map_eq_map, Option.map_some', Option.some_bind] at hf
            rcases ih p c0 parent n2 hp hf with ⟨n, hn⟩ | ⟨q2, hq, hx⟩
            · exact Or.inl ⟨n, by rw [GeneralNode.follow_cons, hi]; exact hn⟩
            · exact Or.inr ⟨q2, by rw [hq]; rfl, hx⟩
          · rw [List.getElem?_modify_ne _ _ hij] at hf
            exact Or.inl ⟨n2, by rw [GeneralNode.follow_cons]; exact hf⟩

theorem GeneralNode.preorderList_append (path : List Nat) (depth i : Nat)
    (xs ys : List GeneralNode) :
    GeneralNode.preorderList path depth i (xs ++ ys) =
      GeneralNode.preorderList path depth i xs ++
        GeneralNode.preorderList path depth (i + xs.length) ys := by
  induction xs generalizing i with
  | nil => simp [GeneralNode.preorderList]
  | cons x xs ih =>
    rw [List.cons_append, GeneralNode.preorderList, GeneralNode.preorderList, ih,
      List.length_cons, show i + 1 + xs.length = i + (xs.length + 1) by omega,
      List.append_assoc]

/-- The search of `findById` fails exactly when no node of the tree has the identifier. -/
theorem GeneralTree.findById_eq_none (t : GeneralTree) (root : GeneralNode)
    (hroot : t.root = some root) (id : String) :
    t.findById id = none ↔ ∀ path n, root.follow path = some n → n.data.id ≠ id := by
  rw [GeneralTree.findById_eq, List.find?_eq_none]
  constructor
  · intro h path n hf
    have hm : (⟨⟨path, n⟩, path.length⟩ : DfsItem) ∈ t.dfs :=
      (GeneralTree.mem_dfs t root hroot _).2 ⟨hf, rfl⟩
    have := h ⟨path, n⟩ (List.mem_map.2 ⟨_, hm, rfl⟩)
    simpa using this
  · intro h r hr
    obtain ⟨it, hit, rfl⟩ := List.mem_map.1 hr
    have := ((GeneralTree.mem_dfs t root hroot it).1 hit).1
    simpa using h _ _ this

/-- A reference returned by `findById` points into the tree, to a node with the identifier. -/
theorem GeneralTree.findById_some (t : GeneralTree) (root : GeneralNode)
    (hroot : t.root = some root) (id : String) (r : NodeRef) (h : t.findById id = some r) :
    root.follow r.path = some r.deref ∧ r.deref.data.id = id := by
  rw [GeneralTree.findById_eq] at h
  have hp := List.find?_some h
  have hm := List.mem_of_find?_eq_some h
  obtain ⟨it, hit, rfl⟩ := List.mem_map.1 hm
  exact ⟨((GeneralTree.mem_dfs t root hroot it).1 hit).1, by simpa using hp⟩

/-! ## Theorems on the general tree -/

/-- C6: on a non-empty tree, `insert(entry, parentId)` with a non-empty `parentId` that is
the entry identifier of no node throws the not-found error and the state (root, hence
every node's child sequence, and size) is the state before the call. -/
theorem C6_missing_parent (t : GeneralTree) (root : GeneralNode) (entry : Entry)
    (pid : String) (hroot : t.root = some root) (hpid : pid ≠ "")
    (hmissing : ∀ path n, root.follow path = some n → n.data.id ≠ pid) :
    t.insert entry (some pid) = ⟨.error .notFound, t⟩ := by
  have hnone := (GeneralTree.findById_eq_none t root hroot pid).2 hmissing
  unfold GeneralTree.insert
  simp only [hroot, hpid, ne_eq, not_false_eq_true, if_true, hnone]

theorem C6_missing_parent_witness :
    "missing-id" ≠ "" ∧
      (∀ path n, (GeneralNode.mk (sampleEntry "g1") []).follow path = some n →
        n.data.id ≠ "missing-id") ∧
      (GeneralTree.mk (some (.mk (sampleEntry "g1") [])) 1).insert (sampleEntry "g2")
          (some "missing-id") =
        ⟨.error .notFound, GeneralTree.mk (some (.mk (sampleEntry "g1") [])) 1⟩ := by
  have hmiss : ∀ path n, (GeneralNode.mk (sampleEntry "g1") []).follow path = some n →
      n.data.id ≠ "missing-id" := by
    intro path n h
    cases path with
    | nil =>
      rw [GeneralNode.follow_nil] at h
      cases h
      decide
    | cons i p => simp [GeneralNode.follow_cons] at h
  exact ⟨by decide, hmiss, C6_missing_parent _ _ _ _ rfl (by decide) hmiss⟩

/-- C7: on a non-empty tree, `insert(entry, parentId)` with a non-empty `parentId` that is
the entry identifier of some node returns: `size` grows by exactly one; the parent chosen is
the first node of `dfs()` with that identifier; a new childless node holding the entry is
the last child of that parent and is the value returned; every node that was there keeps
its path and entry, and every node but the parent keeps its number of children; the tree
has no other new node. -/
theorem C7_insert_under_parent (t : GeneralTree) (root : GeneralNode) (entry : Entry)
    (pid : String) (hroot : t.root = some root) (hpid : pid ≠ "")
    (hexists : ∃ path n, root.follow path = some n ∧ n.data.id = pid) :
    (t.insert entry (some pid)).state.size = t.size + 1 ∧
      ∃ (parent : NodeRef) (newRoot : GeneralNode),
        (t.dfs.map DfsItem.node).find? (fun r => decide (r.deref.data.id = pid)) =
          some parent ∧
        root.follow parent.path = some parent.deref ∧
        (t.insert entry (some pid)).result =
          .ok ⟨parent.path ++ [parent.deref.children.length], .mk entry []⟩ ∧
        (t.insert entry (some pid)).state.root = some newRoot ∧
        newRoot.follow parent.path =
          some (.mk parent.deref.data (parent.deref.children ++ [.mk entry []])) ∧
        newRoot.follow (parent.path ++ [parent.deref.children.length]) =
          some (.mk entry []) ∧
        (∀ q n, root.follow q = some n →
          ∃ n2, newRoot.follow q = some n2 ∧ n2.data = n.data ∧
            (q ≠ parent.path → n2.children.length = n.children.length)) ∧
        (∀ q n2, newRoot.follow q = some n2 →
          (∃ n, root.follow q = some n) ∨
            q = parent.path ++ [parent.deref.children.length]) := by
  have hsome : ∃ parent, t.findById pid = some parent := by
    cases hf : t.findById pid with
    | some parent => exact ⟨parent, rfl⟩
    | none =>
      obtain ⟨path, n, hn, hid⟩ := hexists
      exact absurd hid ((GeneralTree.findById_eq_none t root hroot pid).1 hf path n hn)
  obtain ⟨parent, hparent⟩ := hsome
  obtain ⟨hfollow, _⟩ := GeneralTree.findById_some t root hroot pid parent hparent
  have hins : t.insert entry (some pid) =
      ⟨.ok ⟨parent.path ++ [parent.deref.children.length], .mk entry []⟩,
        { root := some (GeneralNode.addChildAt parent.path root (.mk entry [])),
          size := t.size + 1 }⟩ := by
    unfold GeneralTree.insert
    simp only [hroot, hpid, ne_eq, not_false_eq_true, if_true, hparent]
  obtain ⟨n2, hn2, hdata, _, hchildren⟩ :=
    GeneralNode.follow_addChildAt_keep (.mk entry []) parent.path parent.path root
      parent.deref hfollow
  have hnewParent : (GeneralNode.addChildAt parent.path root (.mk entry [])).follow parent.path =
      some (.mk parent.deref.data (parent.deref.children ++ [.mk entry []])) := by
    have hch := hchildren rfl
    rw [hn2]
    cases n2 with
    | mk d2 cs2 =>
      have h1 : d2 = parent.deref.data := hdata
      have h2 : cs2 = parent.deref.children ++ [.mk entry []] := hch
      rw [h1, h2]
  rw [hins]
  refine ⟨rfl, parent, _, ?_, hfollow, rfl, rfl, hnewParent, ?_, ?_, ?_⟩
  · rw [← GeneralTree.findById_eq]; exact hparent
  · rw [GeneralNode.follow_path_append, hnewParent]
    simp [GeneralNode.follow_cons, GeneralNode.follow_nil]
  · intro q n hq
    obtain ⟨m, hm, hmd, hml, _⟩ :=
      GeneralNode.follow_addChildAt_keep (.mk entry []) q parent.path root n hq
    exact ⟨m, hm, hmd, hml⟩
  · intro q m hq
    rcases GeneralNode.follow_addChildAt_new (.mk entry []) q parent.path root parent.deref m
      hfollow hq with hold | ⟨q2, hq2, hx⟩
    · exact Or.inl hold
    · right
      cases q2 with
      | nil => exact hq2
      | cons j q3 => simp [GeneralNode.follow_cons] at hx

theorem C7_insert_under_parent_witness :
    "g1" ≠ "" ∧
      (∃ path n, (GeneralNode.mk (sampleEntry "g1") []).follow path = some n ∧
        n.data.id = "g1") ∧
      ((GeneralTree.mk (some (.mk (sampleEntry "g1") [])) 1).insert (sampleEntry "g2")
          (some "g1")).state.size = 1 + 1 :=
  ⟨by decide, ⟨[], _, rfl, rfl⟩,
    (C7_insert_under_parent (GeneralTree.mk (some (.mk (sampleEntry "g1") [])) 1) _
      (sampleEntry "g2") "g1" rfl (by decide) ⟨[], _, rfl, rfl⟩).1⟩

/-- C8: on an empty tree, `insert(entry, parentId)` returns for every `parentId` (absent,
empty or any string): the new childless node holding the entry is the root and the value
returned, `size` grows by one, so it is 1 when it was 0, and `parentId` plays no part. -/
theorem C8_insert_into_empty (t : GeneralTree) (entry : Entry) (parentId : Option String)
    (hroot : t.root = none) :
    t.insert entry parentId =
        ⟨.ok ⟨[], .mk entry []⟩, { root := some (.mk entry []), size := t.size + 1 }⟩ ∧
      (t.size = 0 → (t.insert entry parentId).state.size = 1) := by
  have h : t.insert entry parentId =
      ⟨.ok ⟨[], .mk entry []⟩, { root := some (.mk entry []), size := t.size + 1 }⟩ := by
    unfold GeneralTree.insert
    simp only [hroot]
  refine ⟨h, fun hs => ?_⟩
  rw [h, hs]

theorem C8_insert_into_empty_witness :
    GeneralTree.empty.root = none ∧
      (GeneralTree.empty.insert (sampleEntry "g1") (some "no-such-id")).state.size = 1 :=
  ⟨rfl, (C8_insert_into_empty GeneralTree.empty (sampleEntry "g1") (some "no-such-id") rfl).2 rfl⟩

/-- C9: on a non-empty tree, `insert(entry, parentId)` with `parentId` absent or the empty
string returns: the new childless node holding the entry is the last child of the root,
whatever the identifiers in the tree, and is the value returned; `size` grows by exactly
one; `dfs()` after the call is `dfs()` before it followed by the new node at depth 1 (same
paths, entries and depths, and the same items but for the root, which has one child more). -/
theorem C9_insert_default_root (t : GeneralTree) (root : GeneralNode) (entry : Entry)
    (parentId : Option String) (hroot : t.root = some root)
    (hpid : parentId = none ∨ parentId = some "") :
    t.insert entry parentId =
        ⟨.ok ⟨[root.children.length], .mk entry []⟩,
          { root := some (.mk root.data (root.children ++ [.mk entry []])),
            size := t.size + 1 }⟩ ∧
      (t.insert entry parentId).state.dfs.map
          (fun it => (it.node.path, it.node.deref.data, it.depth)) =
        t.dfs.map (fun it => (it.node.path, it.node.deref.data, it.depth)) ++
          [([root.children.length], entry, 1)] ∧
      (t.insert entry parentId).state.dfs.tail =
        t.dfs.tail ++ [⟨⟨[root.children.length], .mk entry []⟩, 1⟩] := by
  have h : t.insert entry parentId =
      ⟨.ok ⟨[root.children.length], .mk entry []⟩,
        { root := some (.mk root.data (root.children ++ [.mk entry []])),
          size := t.size + 1 }⟩ := by
    unfold GeneralTree.insert
    cases root with
    | mk d cs =>
      rcases hpid with rfl | rfl <;>
        simp [hroot, GeneralNode.addChildAt, GeneralNode.children, GeneralNode.data]
  refine ⟨h, ?_, ?_⟩
  · rw [h, GeneralTree.dfs_eq, GeneralTree.dfs_eq, hroot]
    cases root with
    | mk d cs =>
      simp [GeneralNode.preorder, GeneralNode.preorderList_append, GeneralNode.preorderList,
        GeneralNode.data, GeneralNode.children]
  · rw [h, GeneralTree.dfs_eq, GeneralTree.dfs_eq, hroot]
    cases root with
    | mk d cs =>
      simp [GeneralNode.preorder, GeneralNode.preorderList_append, GeneralNode.preorderList,
        GeneralNode.data, GeneralNode.children]

theorem C9_insert_default_root_witness :
    ((some "" : Option String) = none ∨ (some "" : Option String) = some "") ∧
      (GeneralTree.mk (some (.mk (sampleEntry "") [.mk (sampleEntry "") []])) 2).insert
          (sampleEntry "g3") (some "") =
        ⟨.ok ⟨[1], .mk (sampleEntry "g3") []⟩,
          { root := some (.mk (sampleEntry "")
              [.mk (sampleEntry "") [], .mk (sampleEntry "g3") []]),
            size := 3 }⟩ :=
  ⟨Or.inr rfl,
    (C9_insert_default_root
      (GeneralTree.mk (some (.mk (sampleEntry "") [.mk (sampleEntry "") []])) 2) _
      (sampleEntry "g3") (some "") rfl (Or.inr rfl)).1⟩

/-- C10: `findById(id)` returns the first node, in the order of `dfs()`, whose entry has the
identifier `id`; the node returned is in the tree and has that identifier; the result is
absent exactly when the tree is empty or no node of the tree has that identifier. -/
theorem C10_findById_first_in_dfs (t : GeneralTree) (id : String) :
    t.findById id =
        (t.dfs.map DfsItem.node).find? (fun r => decide (r.deref.data.id = id)) ∧
      (∀ r, t.findById id = some r →
        r.deref.data.id = id ∧ ∃ root, t.root = some root ∧
          root.follow r.path = some r.deref) ∧
      (t.findById id = none ↔
        t.root = none ∨
          ∃ root, t.root = some root ∧
            ∀ path n, root.follow path = some n → n.data.id ≠ id) := by
  refine ⟨GeneralTree.findById_eq t id, ?_, ?_⟩
  · intro r hr
    cases hroot : t.root with
    | none => simp [GeneralTree.findById, hroot] at hr
    | some root =>
      obtain ⟨h1, h2⟩ := GeneralTree.findById_some t root hroot id r hr
      exact ⟨h2, root, rfl, h1⟩
  · cases hroot : t.root with
    | none => simp [GeneralTree.findById, hroot]
    | some root =>
      rw [GeneralTree.findById_eq_none t root hroot id]
      simp

/-! ## Lemmas on the traversals of the binary tree -/

theorem BinaryNode.owedPre_pushIf (c : BinaryNode) (stack : List BinaryNode) :
    BinaryNode.owedPre (pushIf c c stack) = c.preOrderRec ++ BinaryNode.owedPre stack := by
  cases c with
  | null => simp [pushIf, BinaryNode.preOrderRec]
  | mk k d l r =>
    simp [pushIf, BinaryNode.preOrderRec, BinaryNode.owedPre, BinaryNode.left, BinaryNode.right]

theorem BinaryNode.preOrderLoop_eq (stack result : List BinaryNode) :
    BinaryNode.preOrderLoop stack result = result ++ BinaryNode.owedPre stack := by
  induction stack, result using BinaryNode.preOrderLoop.induct with
  | case1 result => simp [BinaryNode.preOrderLoop, BinaryNode.owedPre]
  | case2 node stack result ih =>
    rw [BinaryNode.preOrderLoop, ih, BinaryNode.owedPre_pushIf, BinaryNode.owedPre_pushIf]
    simp [BinaryNode.owedPre]

/-- The result of `preOrder()` is the recursive pre-order of the root. -/
theorem BinarySearchTree.preOrder_eq (this : BinarySearchTree) :
    this.preOrder = this.root.preOrderRec := by
  unfold BinarySearchTree.preOrder
  cases hr : this.root with
  | null => simp [BinaryNode.preOrderRec]
  | mk k d l r =>
    simp [BinaryNode.preOrderLoop_eq, BinaryNode.owedPre, BinaryNode.preOrderRec,
      BinaryNode.left, BinaryNode.right]

theorem PostItem.owedPost_pushIf (c : BinaryNode) (stack : List PostItem) :
    (pushIf c (⟨c, false⟩ : PostItem) stack).flatMap PostItem.owed =
      c.postOrderRec ++ stack.flatMap PostItem.owed := by
  cases c with
  | null => simp [pushIf, BinaryNode.postOrderRec]
  | mk k d l r => simp [pushIf, PostItem.owed]

theorem BinaryNode.postOrderLoop_eq (stack : List PostItem) (result : List BinaryNode) :
    BinaryNode.postOrderLoop stack result = result ++ stack.flatMap PostItem.owed := by
  induction stack, result using BinaryNode.postOrderLoop.induct with
  | case1 result => simp [BinaryNode.postOrderLoop]
  | case2 visited stack result ih =>
    rw [BinaryNode.postOrderLoop, ih]
    simp [PostItem.owed]
  | case3 k d l r stack result ih =>
    rw [BinaryNode.postOrderLoop, ih]
    simp [PostItem.owed]
  | case4 k d l r stack result ih =>
    rw [BinaryNode.postOrderLoop, ih, PostItem.owedPost_pushIf, PostItem.owedPost_pushIf]
    simp [PostItem.owed, BinaryNode.postOrderRec]

/-- The result of `postOrder()` is the recursive post-order of the root. -/
theorem BinarySearchTree.postOrder_eq (this : BinarySearchTree) :
    this.postOrder = this.root.postOrderRec := by
  unfold BinarySearchTree.postOrder
  cases hr : this.root with
  | null => simp [BinaryNode.postOrderRec]
  | mk k d l r => simp [BinaryNode.postOrderLoop_eq, PostItem.owed]

theorem IndentItem.owedIndent_pushIf (c : BinaryNode) (path : List Side) (depth : Nat)
    (side : String) (stack : List IndentItem) :
    (pushIf c (⟨⟨path, c⟩, depth, side⟩ : IndentItem) stack).flatMap IndentItem.owed =
      c.indentRec path depth side ++ stack.flatMap IndentItem.owed := by
  cases c with
  | null => simp [pushIf, BinaryNode.indentRec]
  | mk k d l r =>
    simp [pushIf, BinaryNode.indentRec, IndentItem.owed, BinaryNode.left, BinaryNode.right]

theorem BinaryNode.asIndentedLoop_eq (stack result : List IndentItem) :
    BinaryNode.asIndentedLoop stack result = result ++ stack.flatMap IndentItem.owed := by
  induction stack, result using BinaryNode.asIndentedLoop.induct with
  | case1 result => simp [BinaryNode.asIndentedLoop]
  | case2 top stack result ih =>
    rw [BinaryNode.asIndentedLoop, ih, IndentItem.owedIndent_pushIf, IndentItem.owedIndent_pushIf]
    simp [IndentItem.owed]

/-- The result of `asIndented()` is the recursive indented view of the root, at depth 0
with side `"root"`. -/
theorem BinarySearchTree.asIndented_eq (this : BinarySearchTree) :
    this.asIndented = this.root.indentRec [] 0 "root" := by
  unfold BinarySearchTree.asIndented
  cases hr : this.root with
  | null => simp [BinaryNode.indentRec]
  | mk k d l r =>
    simp [BinaryNode.asIndentedLoop_eq, IndentItem.owed, BinaryNode.indentRec,
      BinaryNode.left, BinaryNode.right]

theorem BinaryNode.indentRec_map_deref (n : BinaryNode) (path : List Side) (depth : Nat)
    (side : String) :
    (n.indentRec path depth side).map (fun it => it.node.deref) = n.preOrderRec := by
  induction n generalizing path depth side with
  | null => simp [BinaryNode.indentRec, BinaryNode.preOrderRec]
  | mk k d l r ihl ihr => simp [BinaryNode.indentRec, BinaryNode.preOrderRec, ihl, ihr]

theorem BinaryNode.mem_indentRec (n : BinaryNode) :
    ∀ (path : List Side) (depth : Nat) (side : String) (it : IndentItem),
      it ∈ n.indentRec path depth side →
      ∃ q, it.node.path = path ++ q ∧ n.follow q = it.node.deref ∧
        it.node.deref ≠ .null ∧ it.depth = depth + q.length ∧
        (q = [] → it.side = side) ∧
        (∀ q2, q = q2 ++ [Side.L] → it.side = "L") ∧
        (∀ q2, q = q2 ++ [Side.R] → it.side = "R") := by
  induction n with
  | null => intro path depth side it h; simp [BinaryNode.indentRec] at h
  | mk k d l r ihl ihr =>
    intro path depth side it h
    simp only [BinaryNode.indentRec, List.mem_append, List.mem_singleton] at h
    rcases h with (h | h) | h
    · subst h
      refine ⟨[], by simp, by simp [BinaryNode.follow], by simp, by simp, fun _ => rfl, ?_, ?_⟩
      · intro q2 hq; simp at hq
      · intro q2 hq; simp at hq
    · obtain ⟨q, hp, hf, hne, hd, hs0, hsL, hsR⟩ := ihl _ _ _ it h
      refine ⟨Side.L :: q, by simpa using hp, by simpa [BinaryNode.follow] using hf, hne,
        by rw [hd, List.length_cons]; omega, by simp, ?_, ?_⟩
      · intro q2 hq
        cases q2 with
        | nil =>
          simp only [List.nil_append, List.cons.injEq, true_and] at hq
          exact hs0 hq
        | cons a q3 =>
          simp only [List.cons_append, List.cons.injEq] at hq
          exact hsL q3 hq.2
      · intro q2 hq
        cases q2 with
        | nil => simp at hq
        | cons a q3 =>
          simp only [List.cons_append, List.cons.injEq] at hq
          exact hsR q3 hq.2
    · obtain ⟨q, hp, hf, hne, hd, hs0, hsL, hsR⟩ := ihr _ _ _ it h
      refine ⟨Side.R :: q, by simpa using hp, by simpa [BinaryNode.follow] using hf, hne,
        by rw [hd, List.length_cons]; omega, by simp, ?_, ?_⟩
      · intro q2 hq
        cases q2 with
        | nil => simp at hq
        | cons a q3 =>
          simp only [List.cons_append, List.cons.injEq] at hq
          exact hsL q3 hq.2
      · intro q2 hq
        cases q2 with
        | nil =>
          simp only [List.nil_append, List.cons.injEq, true_and] at hq
          exact hs0 hq
        | cons a q3 =>
          simp only [List.cons_append, List.cons.injEq] at hq
          exact hsR q3 hq.2

/-- The tree built by the seed of the demo (src/app.js 570-574): keys 50, 25, 75, 10, 60. -/
theorem BinarySearchTree.seed_root (e1 e2 e3 e4 e5 : Entry) :
    BinarySearchTree.empty.insertAll
        [(.finite 50, e1), (.finite 25, e2), (.finite 75, e3), (.finite 10, e4),
          (.finite 60, e5)] =
      ⟨.mk 50 e1 (.mk 25 e2 (.mk 10 e4 .null .null) .null)
        (.mk 75 e3 (.mk 60 e5 .null .null) .null), 5⟩ := by
  rfl

/-! ## Theorems on the traversals of the binary tree -/

/-- C14: for every binary tree, ordered or not, the explicit-stack `postOrder()` with its
visited marker equals the recursive post-order reference: empty for the empty tree,
otherwise the post-order of the left subtree, then of the right subtree, then the node. -/
theorem C14_postOrder_refines_recursive :
    (∀ t : BinarySearchTree, t.postOrder = t.root.postOrderRec) ∧
      (∀ s : Nat, (BinarySearchTree.mk .null s).postOrder = []) ∧
      (∀ (k : ℚ) (d : Entry) (l r : BinaryNode) (s sl sr : Nat),
        (BinarySearchTree.mk (.mk k d l r) s).postOrder =
          (BinarySearchTree.mk l sl).postOrder ++ (BinarySearchTree.mk r sr).postOrder ++
            [.mk k d l r]) := by
  refine ⟨BinarySearchTree.postOrder_eq, fun s => ?_, fun k d l r s sl sr => ?_⟩
  · rw [BinarySearchTree.postOrder_eq]; rfl
  · rw [BinarySearchTree.postOrder_eq, BinarySearchTree.postOrder_eq,
      BinarySearchTree.postOrder_eq]
    rfl

/-- C15: for every binary tree, ordered or not, the explicit-stack `preOrder()` equals the
recursive pre-order reference: empty for the empty tree, otherwise the node, then the
pre-order of the left subtree, then of the right subtree. -/
theorem C15_preOrder_refines_recursive :
    (∀ t : BinarySearchTree, t.preOrder = t.root.preOrderRec) ∧
      (∀ s : Nat, (BinarySearchTree.mk .null s).preOrder = []) ∧
      (∀ (k : ℚ) (d : Entry) (l r : BinaryNode) (s sl sr : Nat),
        (BinarySearchTree.mk (.mk k d l r) s).preOrder =
          [.mk k d l r] ++ (BinarySearchTree.mk l sl).preOrder ++
            (BinarySearchTree.mk r sr).preOrder) := by
  refine ⟨BinarySearchTree.preOrder_eq, fun s => ?_, fun k d l r s sl sr => ?_⟩
  · rw [BinarySearchTree.preOrder_eq]; rfl
  · rw [BinarySearchTree.preOrder_eq, BinarySearchTree.preOrder_eq,
      BinarySearchTree.preOrder_eq]
    rfl

/-- C16: for every binary tree, ordered or not, the iterative `inOrder()` equals the
recursive in-order reference: empty for the empty tree, otherwise the in-order of the left
subtree, then the node, then the in-order of the right subtree. -/
theorem C16_inOrder_refines_recursive :
    (∀ t : BinarySearchTree, t.inOrder = t.root.inOrderRec) ∧
      (∀ s : Nat, (BinarySearchTree.mk .null s).inOrder = []) ∧
      (∀ (k : ℚ) (d : Entry) (l r : BinaryNode) (s sl sr : Nat),
        (BinarySearchTree.mk (.mk k d l r) s).inOrder =
          (BinarySearchTree.mk l sl).inOrder ++ [.mk k d l r] ++
            (BinarySearchTree.mk r sr).inOrder) := by
  refine ⟨BinarySearchTree.inOrder_eq, fun s => ?_, fun k d l r s sl sr => ?_⟩
  · rw [BinarySearchTree.inOrder_eq]; rfl
  · rw [BinarySearchTree.inOrder_eq, BinarySearchTree.inOrder_eq,
      BinarySearchTree.inOrder_eq]
    rfl

/-- C17: inserting the keys 50, 25, 75, 10, 60 in that order into an empty tree, with any
entries, succeeds five times (each call returns a node and `size` ends at 5), and then the
keys of `inOrder()` are 10, 25, 50, 60, 75, those of `preOrder()` are 50, 25, 10, 75, 60 and
those of `postOrder()` are 10, 25, 60, 75, 50. -/
theorem C17_seed_traversals (e1 e2 e3 e4 e5 : Entry) :
    (∃ v, (BinarySearchTree.empty.insert (.finite 50) e1).result = .ok v) ∧
      (∃ v, ((BinarySearchTree.empty.insertAll [(.finite 50, e1)]).insert
        (.finite 25) e2).result = .ok v) ∧
      (∃ v, ((BinarySearchTree.empty.insertAll [(.finite 50, e1), (.finite 25, e2)]).insert
        (.finite 75) e3).result = .ok v) ∧
      (∃ v, ((BinarySearchTree.empty.insertAll
        [(.finite 50, e1), (.finite 25, e2), (.finite 75, e3)]).insert
          (.finite 10) e4).result = .ok v) ∧
      (∃ v, ((BinarySearchTree.empty.insertAll
        [(.finite 50, e1), (.finite 25, e2), (.finite 75, e3), (.finite 10, e4)]).insert
          (.finite 60) e5).result = .ok v) ∧
      (BinarySearchTree.empty.insertAll
        [(.finite 50, e1), (.finite 25, e2), (.finite 75, e3), (.finite 10, e4),
          (.finite 60, e5)]).size = 5 ∧
      (BinarySearchTree.empty.insertAll
        [(.finite 50, e1), (.finite 25, e2), (.finite 75, e3), (.finite 10, e4),
          (.finite 60, e5)]).inOrder.map BinaryNode.key? =
        [some 10, some 25, some 50, some 60, some 75] ∧
      (BinarySearchTree.empty.insertAll
        [(.finite 50, e1), (.finite 25, e2), (.finite 75, e3), (.finite 10, e4),
          (.finite 60, e5)]).preOrder.map BinaryNode.key? =
        [some 50, some 25, some 10, some 75, some 60] ∧
      (BinarySearchTree.empty.insertAll
        [(.finite 50, e1), (.finite 25, e2), (.finite 75, e3), (.finite 10, e4),
          (.finite 60, e5)]).postOrder.map BinaryNode.key? =
        [some 10, some 25, some 60, some 75, some 50] := by
  refine ⟨⟨_, rfl⟩, ⟨_, rfl⟩, ⟨_, rfl⟩, ⟨_, rfl⟩, ⟨_, rfl⟩, ?_, ?_, ?_, ?_⟩
  · rw [BinarySearchTree.seed_root]
  · rw [BinarySearchTree.seed_root, BinarySearchTree.inOrder_eq]; rfl
  · rw [BinarySearchTree.seed_root, BinarySearchTree.preOrder_eq]; rfl
  · rw [BinarySearchTree.seed_root, BinarySearchTree.postOrder_eq]; rfl

/-- C18: for every binary tree, the nodes of `asIndented()`, depth and side dropped, are
element by element those of `preOrder()`. -/
theorem C18_asIndented_nodes_eq_preOrder (t : BinarySearchTree) :
    t.asIndented.map (fun it => it.node.deref) = t.preOrder := by
  rw [BinarySearchTree.asIndented_eq, BinarySearchTree.preOrder_eq,
    BinaryNode.indentRec_map_deref]

/-- C19: for every binary tree, every item of `asIndented()` refers to a node of the tree,
its depth is the number of edges from the root to the node, and its side is `"root"`
exactly for the root, `"L"` exactly when the node is the left child of its parent and
`"R"` exactly when it is the right child.  On the tree built by inserting 50, 25, 75, 10,
60 the items are 50 (depth 0, root), 25 (1, L), 10 (2, L), 75 (1, R), 60 (2, L). -/
theorem C19_asIndented_depth_side :
    (∀ (t : BinarySearchTree) (it : IndentItem), it ∈ t.asIndented →
      t.root.follow it.node.path = it.node.deref ∧ it.node.deref ≠ .null ∧
        it.depth = it.node.path.length ∧
        (it.side = "root" ↔ it.node.path = []) ∧
        (it.side = "L" ↔ ∃ q, it.node.path = q ++ [Side.L]) ∧
        (it.side = "R" ↔ ∃ q, it.node.path = q ++ [Side.R])) ∧
      (∀ e1 e2 e3 e4 e5 : Entry,
        (BinarySearchTree.empty.insertAll
          [(.finite 50, e1), (.finite 25, e2), (.finite 75, e3), (.finite 10, e4),
            (.finite 60, e5)]).asIndented.map
              (fun it => (it.node.deref.key?, it.depth, it.side)) =
          [(some 50, 0, "root"), (some 25, 1, "L"), (some 10, 2, "L"), (some 75, 1, "R"),
            (some 60, 2, "L")]) := by
  constructor
  · intro t it hit
    rw [BinarySearchTree.asIndented_eq] at hit
    obtain ⟨q, hp, hf, hne, hd, hs0, hsL, hsR⟩ := BinaryNode.mem_indentRec _ _ _ _ it hit
    simp only [List.nil_append] at hp
    subst hp
    have hcases : it.node.path = [] ∨ (∃ q2, it.node.path = q2 ++ [Side.L]) ∨
        (∃ q2, it.node.path = q2 ++ [Side.R]) := by
      rcases List.eq_nil_or_concat it.node.path with h | ⟨q2, a, h⟩
      · exact Or.inl h
      · cases a with
        | L => exact Or.inr (Or.inl ⟨q2, by rw [h, List.concat_eq_append]⟩)
        | R => exact Or.inr (Or.inr ⟨q2, by rw [h, List.concat_eq_append]⟩)
    refine ⟨hf, hne, by simpa using hd, ?_, ?_, ?_⟩
    · constructor
      · intro hs
        rcases hcases with h | ⟨q2, h⟩ | ⟨q2, h⟩
        · exact h
        · rw [hsL q2 h] at hs; exact absurd hs (by decide)
        · rw [hsR q2 h] at hs; exact absurd hs (by decide)
      · exact hs0
    · constructor
      · intro hs
        rcases hcases with h | ⟨q2, h⟩ | ⟨q2, h⟩
        · rw [hs0 h] at hs; exact absurd hs (by decide)
        · exact ⟨q2, h⟩
        · rw [hsR q2 h] at hs; exact absurd hs (by decide)
      · rintro ⟨q2, h⟩; exact hsL q2 h
    · constructor
      · intro hs
        rcases hcases with h | ⟨q2, h⟩ | ⟨q2, h⟩
        · rw [hs0 h] at hs; exact absurd hs (by decide)
        · rw [hsL q2 h] at hs; exact absurd hs (by decide)
        · exact ⟨q2, h⟩
      · rintro ⟨q2, h⟩; exact hsR q2 h
  · intro e1 e2 e3 e4 e5
    rw [BinarySearchTree.seed_root, BinarySearchTree.asIndented_eq]
    rfl

/-! ## Size and coverage of the binary tree traversals -/

theorem BinaryNode.count_insertRec (q : ℚ) (entry : Entry) (t : BinaryNode)
    (h : ¬ t.onSearchPath q) : (t.insertRec q entry).count = t.count + 1 := by
  induction t with
  | null => simp [BinaryNode.insertRec, BinaryNode.count]
  | mk k d l r ihl ihr =>
    simp only [BinaryNode.onSearchPath, not_or] at h
    obtain ⟨heq, hrest⟩ := h
    unfold BinaryNode.insertRec
    by_cases hlt : q < k
    · simp only [hlt, if_true] at hrest
      simp only [heq, hlt, if_false, if_true, BinaryNode.count, ihl hrest]
      omega
    · simp only [hlt, if_false] at hrest
      simp only [heq, hlt, if_false, BinaryNode.count, ihr hrest]
      omega

theorem BinarySearchTree.Reachable.size_eq_count {t : BinarySearchTree} (h : t.Reachable) :
    t.size = t.root.count := by
  induction h with
  | empty => simp [BinarySearchTree.empty, BinaryNode.count]
  | @insert t key entry _ ih =>
    cases key with
    | finite q =>
      by_cases hp : t.root.onSearchPath q
      · rw [BinarySearchTree.insert_dup t q entry hp]; exact ih
      · rw [BinarySearchTree.insert_ok t q entry hp]
        simp only
        rw [BinaryNode.count_insertRec q entry t.root hp, ih]
    | nan => exact ih
    | posInf => exact ih
    | negInf => exact ih

theorem BinaryNode.length_inOrderRec (t : BinaryNode) : t.inOrderRec.length = t.count := by
  induction t with
  | null => simp [BinaryNode.inOrderRec, BinaryNode.count]
  | mk k d l r ihl ihr =>
    simp only [BinaryNode.inOrderRec, BinaryNode.count, List.length_append,
      List.length_singleton, ihl, ihr]

theorem BinaryNode.preOrderRec_perm (t : BinaryNode) : t.preOrderRec.Perm t.inOrderRec := by
  induction t with
  | null => simp [BinaryNode.preOrderRec, BinaryNode.inOrderRec]
  | mk k d l r ihl ihr =>
    simp only [BinaryNode.preOrderRec, BinaryNode.inOrderRec, List.append_assoc,
      List.singleton_append]
    exact (List.Perm.cons _ (ihl.append ihr)).trans List.perm_middle.symm

theorem BinaryNode.postOrderRec_perm (t : BinaryNode) : t.postOrderRec.Perm t.inOrderRec := by
  induction t with
  | null => simp [BinaryNode.postOrderRec, BinaryNode.inOrderRec]
  | mk k d l r ihl ihr =>
    simp only [BinaryNode.postOrderRec, BinaryNode.inOrderRec, List.append_assoc,
      List.singleton_append]
    refine (ihl.append (ihr.append_right _)).trans ?_
    exact List.Perm.append_left _ (List.perm_append_singleton _ _)

theorem BinaryNode.follow_null (p : List Side) : BinaryNode.null.follow p = .null := by
  cases p <;> rfl

theorem BinaryNode.mem_inOrderRec_iff (t n : BinaryNode) :
    n ∈ t.inOrderRec ↔ n ≠ .null ∧ ∃ p, t.follow p = n := by
  induction t with
  | null =>
    simp only [BinaryNode.inOrderRec, List.not_mem_nil, false_iff, not_and, not_exists]
    intro hne p hp
    rw [BinaryNode.follow_null] at hp
    exact hne hp.symm
  | mk k d l r ihl ihr =>
    simp only [BinaryNode.inOrderRec, List.mem_append, List.mem_singleton, ihl, ihr]
    constructor
    · rintro ((⟨hne, p, hp⟩ | h) | ⟨hne, p, hp⟩)
      · exact ⟨hne, Side.L :: p, by simpa [BinaryNode.follow] using hp⟩
      · exact ⟨by rw [h]; simp, [], by rw [h]; simp [BinaryNode.follow]⟩
      · exact ⟨hne, Side.R :: p, by simpa [BinaryNode.follow] using hp⟩
    · rintro ⟨hne, p, hp⟩
      cases p with
      | nil => exact Or.inl (Or.inr (by simpa [BinaryNode.follow] using hp.symm))
      | cons a p =>
        cases a with
        | L => exact Or.inl (Or.inl ⟨hne, p, by simpa [BinaryNode.follow] using hp⟩)
        | R => exact Or.inr ⟨hne, p, by simpa [BinaryNode.follow] using hp⟩

theorem BinaryNode.inOrderRec_map_key (t : BinaryNode) :
    t.inOrderRec.map BinaryNode.key? = t.keys.map some := by
  induction t with
  | null => simp [BinaryNode.inOrderRec, BinaryNode.keys]
  | mk k d l r ihl ihr =>
    simp [BinaryNode.inOrderRec, BinaryNode.keys, ihl, ihr, BinaryNode.key?]

/-- In an ordered tree no two nodes are equal: their keys differ. -/
theorem BinaryNode.nodup_inOrderRec (t : BinaryNode) (h : t.Ordered) : t.inOrderRec.Nodup := by
  have hk : t.keys.Nodup := (BinaryNode.keys_sorted t h).imp (fun hab => ne_of_lt hab)
  have hm : (t.inOrderRec.map BinaryNode.key?).Nodup := by
    rw [BinaryNode.inOrderRec_map_key]
    exact hk.map (Option.some_injective _)
  exact List.Nodup.of_map _ hm

/-- C13: in every tree reachable from the empty tree by calls of `insert`, successful or
failing, `size` is the number of nodes of the tree, and each of `inOrder()`, `preOrder()`,
`postOrder()` and `asIndented()` (its nodes) has exactly `size` elements, has no element
twice, and its elements are exactly the nodes of the tree. -/
theorem C13_size_and_traversal_coverage (t : BinarySearchTree) (h : t.Reachable) :
    t.size = t.root.count ∧
      ∀ trav ∈ [t.inOrder, t.preOrder, t.postOrder,
          t.asIndented.map (fun it => it.node.deref)],
        trav.length = t.size ∧ trav.Nodup ∧
          ∀ n, n ∈ trav ↔ (n ≠ .null ∧ ∃ p, t.root.follow p = n) := by
  have hsize := h.size_eq_count
  have hnodup := BinaryNode.nodup_inOrderRec t.root h.ordered
  have key : ∀ trav : List BinaryNode, trav.Perm t.root.inOrderRec →
      trav.length = t.size ∧ trav.Nodup ∧
        ∀ n, n ∈ trav ↔ (n ≠ .null ∧ ∃ p, t.root.follow p = n) := by
    intro trav hperm
    refine ⟨?_, hperm.nodup_iff.2 hnodup, fun n => ?_⟩
    · rw [hperm.length_eq, BinaryNode.length_inOrderRec, hsize]
    · rw [hperm.mem_iff, BinaryNode.mem_inOrderRec_iff]
  refine ⟨hsize, ?_⟩
  intro trav htrav
  simp only [List.mem_cons, List.mem_singleton, List.not_mem_nil, or_false] at htrav
  rcases htrav with rfl | rfl | rfl | rfl
  · exact key _ (by rw [BinarySearchTree.inOrder_eq])
  · exact key _ (by rw [BinarySearchTree.preOrder_eq]; exact BinaryNode.preOrderRec_perm _)
  · exact key _ (by rw [BinarySearchTree.postOrder_eq]; exact BinaryNode.postOrderRec_perm _)
  · exact key _ (by
      rw [BinarySearchTree.asIndented_eq, BinaryNode.indentRec_map_deref]
      exact BinaryNode.preOrderRec_perm _)

theorem C13_size_and_traversal_coverage_witness :
    (BinarySearchTree.empty.insertAll
        [(.finite 50, sampleEntry "b1"), (.finite 25, sampleEntry "b2"),
          (.finite 50, sampleEntry "b3"), (.nan, sampleEntry "b4")]).Reachable ∧
      (BinarySearchTree.empty.insertAll
        [(.finite 50, sampleEntry "b1"), (.finite 25, sampleEntry "b2"),
          (.finite 50, sampleEntry "b3"), (.nan, sampleEntry "b4")]).size =
        (BinarySearchTree.empty.insertAll
          [(.finite 50, sampleEntry "b1"), (.finite 25, sampleEntry "b2"),
            (.finite 50, sampleEntry "b3"), (.nan, sampleEntry "b4")]).root.count :=
  ⟨BinarySearchTree.Reachable.insertAll BinarySearchTree.Reachable.empty _,
    (C13_size_and_traversal_coverage _
      (BinarySearchTree.Reachable.insertAll BinarySearchTree.Reachable.empty _)).1⟩

/-! ## Lemmas on the states of the general tree -/

/-- The three ways a call of `GeneralTree.insert` can end. -/
theorem GeneralTree.insert_cases (t : GeneralTree) (entry : Entry) (parentId : Option String) :
    ((∃ root, t.root = some root) ∧ t.insert entry parentId = ⟨.error .notFound, t⟩) ∨
      (t.root = none ∧
        t.insert entry parentId =
          ⟨.ok ⟨[], .mk entry []⟩, { root := some (.mk entry []), size := t.size + 1 }⟩) ∨
      ∃ root ppath parent, t.root = some root ∧ root.follow ppath = some parent ∧
        t.insert entry parentId =
          ⟨.ok ⟨ppath ++ [parent.children.length], .mk entry []⟩,
            { root := some (GeneralNode.addChildAt ppath root (.mk entry [])),
              size := t.size + 1 }⟩ := by
  cases hroot : t.root with
  | none =>
    right; left
    exact ⟨rfl, by unfold GeneralTree.insert; simp only [hroot]⟩
  | some root =>
    have hatRoot : ∀ pid, (pid = none ∨ pid = some "") →
        t.insert entry pid =
          ⟨.ok ⟨[] ++ [root.children.length], .mk entry []⟩,
            { root := some (GeneralNode.addChildAt [] root (.mk entry [])),
              size := t.size + 1 }⟩ := by
      intro pid hpid
      unfold GeneralTree.insert
      rcases hpid with rfl | rfl <;> simp [hroot]
    cases parentId with
    | none =>
      right; right
      exact ⟨root, [], root, rfl, GeneralNode.follow_nil _, hatRoot none (Or.inl rfl)⟩
    | some pid =>
      by_cases hpid : pid = ""
      · right; right
        subst hpid
        exact ⟨root, [], root, rfl, GeneralNode.follow_nil _, hatRoot _ (Or.inr rfl)⟩
      · cases hfind : t.findById pid with
        | none =>
          left
          refine ⟨⟨root, rfl⟩, ?_⟩
          unfold GeneralTree.insert
          simp only [hroot, hpid, ne_eq, not_false_eq_true, if_true, hfind]
        | some parent =>
          right; right
          refine ⟨root, parent.path, parent.deref, rfl,
            (GeneralTree.findById_some t root hroot pid parent hfind).1, ?_⟩
          unfold GeneralTree.insert
          simp only [hroot, hpid, ne_eq, not_false_eq_true, if_true, hfind]

theorem GeneralTree.Reachable.size_zero_iff {t : GeneralTree} (h : t.Reachable) :
    t.size = 0 ↔ t.root = none := by
  induction h with
  | empty => simp [GeneralTree.empty]
  | @insert t entry parentId _ ih =>
    rcases GeneralTree.insert_cases t entry parentId with
      ⟨_, hins⟩ | ⟨_, hins⟩ | ⟨root, ppath, parent, _, _, hins⟩
    · rw [hins]; exact ih
    · rw [hins]; simp
    · rw [hins]; simp

theorem GeneralTree.Reachable.insertAll_general {t : GeneralTree} (h : t.Reachable)
    (calls : List (Entry × Option String)) : (t.insertAll calls).Reachable := by
  induction calls generalizing t with
  | nil => exact h
  | cons c calls ih =>
    obtain ⟨entry, parentId⟩ := c
    exact ih (GeneralTree.Reachable.insert entry parentId h)

/-- A call of `insert` with a non-empty `parentId` attaches the new node under the first
node of the recursive preorder that has the identifier. -/
theorem GeneralTree.insert_found (t : GeneralTree) (root : GeneralNode) (entry : Entry)
    (pid : String) (parent : NodeRef) (hroot : t.root = some root) (hpid : pid ≠ "")
    (hfind : ((root.preorder [] 0).map DfsItem.node).find?
      (fun r => decide (r.deref.data.id = pid)) = some parent) :
    t.insert entry (some pid) =
      ⟨.ok ⟨parent.path ++ [parent.deref.children.length], .mk entry []⟩,
        { root := some (GeneralNode.addChildAt parent.path root (.mk entry [])),
          size := t.size + 1 }⟩ := by
  have hf : t.findById pid = some parent := by
    rw [GeneralTree.findById_eq, GeneralTree.dfs_eq, hroot]
    exact hfind
  unfold GeneralTree.insert
  simp only [hroot, hpid, ne_eq, not_false_eq_true, if_true, hf]

/-- The seed of the demo (src/app.js 563-567), with identifiers `r`, `a`, `g`, `b`: a root,
a first child, a child of that child, a second child of the root. -/
theorem GeneralTree.seed_eq :
    GeneralTree.empty.insertAll
        [(sampleEntry "r", none), (sampleEntry "a", some "r"), (sampleEntry "g", some "a"),
          (sampleEntry "b", some "r")] =
      ⟨some (.mk (sampleEntry "r")
        [.mk (sampleEntry "a") [.mk (sampleEntry "g") []], .mk (sampleEntry "b") []]), 4⟩ := by
  have h1 : GeneralTree.empty.insert (sampleEntry "r") none =
      ⟨.ok ⟨[], .mk (sampleEntry "r") []⟩, ⟨some (.mk (sampleEntry "r") []), 1⟩⟩ := rfl
  have h2 : (GeneralTree.mk (some (.mk (sampleEntry "r") [])) 1).insert (sampleEntry "a")
      (some "r") =
      ⟨.ok ⟨[0], .mk (sampleEntry "a") []⟩,
        ⟨some (.mk (sampleEntry "r") [.mk (sampleEntry "a") []]), 2⟩⟩ := by
    rw [GeneralTree.insert_found (GeneralTree.mk (some (.mk (sampleEntry "r") [])) 1)
      (.mk (sampleEntry "r") []) (sampleEntry "a") "r" ⟨[], .mk (sampleEntry "r") []⟩ rfl
      (by decide) (by rfl)]
    rfl
  have h3 : (GeneralTree.mk (some (.mk (sampleEntry "r") [.mk (sampleEntry "a") []])) 2).insert
      (sampleEntry "g") (some "a") =
      ⟨.ok ⟨[0, 0], .mk (sampleEntry "g") []⟩,
        ⟨some (.mk (sampleEntry "r") [.mk (sampleEntry "a") [.mk (sampleEntry "g") []]]),
          3⟩⟩ := by
    rw [GeneralTree.insert_found
      (GeneralTree.mk (some (.mk (sampleEntry "r") [.mk (sampleEntry "a") []])) 2)
      (.mk (sampleEntry "r") [.mk (sampleEntry "a") []]) (sampleEntry "g") "a"
      ⟨[0], .mk (sampleEntry "a") []⟩ rfl (by decide) (by rfl)]
    rfl
  have h4 : (GeneralTree.mk (some (.mk (sampleEntry "r")
      [.mk (sampleEntry "a") [.mk (sampleEntry "g") []]])) 3).insert
        (sampleEntry "b") (some "r") =
      ⟨.ok ⟨[1], .mk (sampleEntry "b") []⟩,
        ⟨some (.mk (sampleEntry "r")
          [.mk (sampleEntry "a") [.mk (sampleEntry "g") []], .mk (sampleEntry "b") []]),
          4⟩⟩ := by
    rw [GeneralTree.insert_found
      (GeneralTree.mk (some (.mk (sampleEntry "r")
        [.mk (sampleEntry "a") [.mk (sampleEntry "g") []]])) 3)
      (.mk (sampleEntry "r") [.mk (sampleEntry "a") [.mk (sampleEntry "g") []]])
      (sampleEntry "b") "r"
      ⟨[], .mk (sampleEntry "r") [.mk (sampleEntry "a") [.mk (sampleEntry "g") []]]⟩ rfl
      (by decide) (by rfl)]
    rfl
  simp only [GeneralTree.insertAll, h1, h2, h3, h4]

/-! ## Theorems on the traversal and the states of the general tree -/

/-- C11: for every general tree, the explicit-stack `dfs()` equals the recursive
preorder-with-depth reference: empty for the empty tree; otherwise the root at depth 0, and
every node is followed by the traversals of its children, in stored order, one level
deeper.  The tree root → childA, childB with a grandchild under childA gives root (0),
childA (1), grandchild (2), childB (1), and the seed of the demo builds that tree. -/
theorem C11_dfs_refines_recursive :
    (∀ t : GeneralTree, t.dfs =
      match t.root with
      | none => []
      | some root => root.preorder [] 0) ∧
      (∀ s : Nat, (GeneralTree.mk none s).dfs = []) ∧
      (∀ (r a g b : Entry) (s : Nat),
        (GeneralTree.mk (some (.mk r [.mk a [.mk g []], .mk b []])) s).dfs =
          [⟨⟨[], .mk r [.mk a [.mk g []], .mk b []]⟩, 0⟩, ⟨⟨[0], .mk a [.mk g []]⟩, 1⟩,
            ⟨⟨[0, 0], .mk g []⟩, 2⟩, ⟨⟨[1], .mk b []⟩, 1⟩]) ∧
      (GeneralTree.empty.insertAll
        [(sampleEntry "r", none), (sampleEntry "a", some "r"), (sampleEntry "g", some "a"),
          (sampleEntry "b", some "r")]).dfs.map (fun it => (it.node.deref.data.id, it.depth)) =
        [("r", 0), ("a", 1), ("g", 2), ("b", 1)] := by
  refine ⟨GeneralTree.dfs_eq, fun s => ?_, fun r a g b s => ?_, ?_⟩
  · rw [GeneralTree.dfs_eq]
  · rw [GeneralTree.dfs_eq]; rfl
  · rw [GeneralTree.seed_eq, GeneralTree.dfs_eq]; rfl

/-- C20: in every state of a general tree reachable from the freshly constructed one by
calls of `insert`, successful or failing, `size` is 0 if and only if the root is absent. -/
theorem C20_size_zero_iff_no_root (t : GeneralTree) (h : t.Reachable) :
    t.size = 0 ↔ t.root = none :=
  h.size_zero_iff

theorem C20_size_zero_iff_no_root_witness :
    (GeneralTree.empty.insertAll
        [(sampleEntry "r", none), (sampleEntry "a", some "missing")]).Reachable ∧
      ((GeneralTree.empty.insertAll
        [(sampleEntry "r", none), (sampleEntry "a", some "missing")]).size = 0 ↔
        (GeneralTree.empty.insertAll
          [(sampleEntry "r", none), (sampleEntry "a", some "missing")]).root = none) :=
  ⟨GeneralTree.Reachable.insertAll_general GeneralTree.Reachable.empty _,
    C20_size_zero_iff_no_root _
      (GeneralTree.Reachable.insertAll_general GeneralTree.Reachable.empty _)⟩

/-! ## Lemmas on the coverage of `dfs()` -/

theorem GeneralNode.nodup_preorderList_paths (path : List Nat) (depth : Nat)
    (cs : List GeneralNode)
    (ih : ∀ c ∈ cs, ∀ (p : List Nat) (d : Nat),
      ((c.preorder p d).map (fun it => it.node.path)).Nodup) (i : Nat) :
    ((GeneralNode.preorderList path depth i cs).map (fun it => it.node.path)).Nodup := by
  induction cs generalizing i with
  | nil => simp [GeneralNode.preorderList]
  | cons c cs ihc =>
    simp only [GeneralNode.preorderList, List.map_append]
    refine List.Nodup.append (ih c (List.mem_cons_self _ _) _ _)
      (ihc (fun x hx => ih x (List.mem_cons_of_mem _ hx)) (i + 1)) ?_
    rw [List.disjoint_left]
    intro x hx1 hx2
    obtain ⟨it1, hit1, rfl⟩ := List.mem_map.1 hx1
    obtain ⟨it2, hit2, he⟩ := List.mem_map.1 hx2
    obtain ⟨q1, hp1, _, _⟩ := (GeneralNode.mem_preorder c _ _ it1).1 hit1
    obtain ⟨j, c2, q2, _, hp2, _, _⟩ :=
      (GeneralNode.mem_preorderList path depth cs (fun x _ => GeneralNode.mem_preorder x)
        (i + 1) it2).1 hit2
    rw [hp1, hp2] at he
    simp only [List.append_assoc, List.singleton_append, List.append_cancel_left_eq,
      List.cons.injEq] at he
    omega

/-- The recursive preorder lists every path once. -/
theorem GeneralNode.nodup_preorder_paths (n : GeneralNode) :
    ∀ (p : List Nat) (d : Nat), ((n.preorder p d).map (fun it => it.node.path)).Nodup := by
  induction n using GeneralNode.induction with
  | h e cs ih =>
    intro p d
    simp only [GeneralNode.preorder, List.map_cons, List.nodup_cons]
    refine ⟨?_, GeneralNode.nodup_preorderList_paths p d cs ih 0⟩
    intro hmem
    obtain ⟨it, hit, he⟩ := List.mem_map.1 hmem
    obtain ⟨j, c2, q2, _, hp2, _, _⟩ :=
      (GeneralNode.mem_preorderList p d cs (fun x _ => GeneralNode.mem_preorder x) 0 it).1 hit
    rw [hp2] at he
    have hlen := congrArg List.length he
    simp at hlen

theorem GeneralTree.nodup_dfs_paths (t : GeneralTree) :
    (t.dfs.map (fun it => it.node.path)).Nodup := by
  rw [GeneralTree.dfs_eq]
  cases t.root with
  | none => simp
  | some root => exact GeneralNode.nodup_preorder_paths root [] 0

theorem GeneralNode.mem_preorder_ident (n : GeneralNode) (q : List Nat) (e : Entry) :
    (q, e) ∈ ((n.preorder [] 0).map DfsItem.node).map NodeRef.ident ↔
      ∃ m, n.follow q = some m ∧ m.data = e := by
  constructor
  · intro h
    obtain ⟨r, hr, hre⟩ := List.mem_map.1 h
    obtain ⟨it, hit, rfl⟩ := List.mem_map.1 hr
    obtain ⟨q2, hp, hf, _⟩ := (GeneralNode.mem_preorder n [] 0 it).1 hit
    simp only [NodeRef.ident, Prod.mk.injEq] at hre
    simp only [List.nil_append] at hp
    rw [← hre.1, hp]
    exact ⟨it.node.deref, hf, hre.2⟩
  · rintro ⟨m, hf, hm⟩
    refine List.mem_map.2 ⟨⟨q, m⟩, List.mem_map.2 ⟨⟨⟨q, m⟩, q.length⟩, ?_, rfl⟩, ?_⟩
    · exact (GeneralNode.mem_preorder n [] 0 _).2 ⟨q, by simp, hf, by simp⟩
    · simp [NodeRef.ident, hm]

theorem GeneralNode.nodup_preorder_ident (n : GeneralNode) :
    (((n.preorder [] 0).map DfsItem.node).map NodeRef.ident).Nodup := by
  apply List.Nodup.of_map Prod.fst
  have := GeneralNode.nodup_preorder_paths n [] 0
  simpa [List.map_map, Function.comp_def, NodeRef.ident] using this

theorem GeneralNode.follow_addChildAt_child (x : GeneralNode) (p : List Nat)
    (root parent : GeneralNode) (h : root.follow p = some parent) :
    (GeneralNode.addChildAt p root x).follow (p ++ [parent.children.length]) = some x := by
  obtain ⟨n2, hn2, _, _, hch⟩ := GeneralNode.follow_addChildAt_keep x p p root parent h
  rw [GeneralNode.follow_path_append, hn2]
  cases n2 with
  | mk d2 cs2 =>
    have h2 : cs2 = parent.children ++ [x] := hch rfl
    simp [GeneralNode.follow_cons, GeneralNode.follow_nil, h2]

theorem GeneralNode.follow_fresh_path (p : List Nat) (root parent : GeneralNode)
    (h : root.follow p = some parent) :
    root.follow (p ++ [parent.children.length]) = none := by
  rw [GeneralNode.follow_path_append, h]
  cases parent with
  | mk d cs => simp [GeneralNode.follow_cons, GeneralNode.children]

/-- After `addChild` at a path, the recursive preorder lists the nodes it listed before,
at the same paths and with the same entries, and the new node. -/
theorem GeneralNode.preorder_ident_addChildAt (entry : Entry) (p : List Nat)
    (root parent : GeneralNode) (h : root.follow p = some parent) :
    ((((GeneralNode.addChildAt p root (.mk entry [])).preorder [] 0).map
        DfsItem.node).map NodeRef.ident).Perm
      (((root.preorder [] 0).map DfsItem.node).map NodeRef.ident ++
        [(p ++ [parent.children.length], entry)]) := by
  have hfresh := GeneralNode.follow_fresh_path p root parent h
  have hnd2 : (((root.preorder [] 0).map DfsItem.node).map NodeRef.ident ++
      [(p ++ [parent.children.length], entry)]).Nodup := by
    refine List.Nodup.append (GeneralNode.nodup_preorder_ident root) (by simp) ?_
    rw [List.disjoint_left]
    intro a ha hb
    rw [List.mem_singleton] at hb
    subst hb
    obtain ⟨m, hm, _⟩ := (GeneralNode.mem_preorder_ident root _ _).1 ha
    rw [hfresh] at hm
    cases hm
  rw [List.perm_ext_iff_of_nodup (GeneralNode.nodup_preorder_ident _) hnd2]
  rintro ⟨q, e⟩
  rw [GeneralNode.mem_preorder_ident, List.mem_append, GeneralNode.mem_preorder_ident,
    List.mem_singleton]
  constructor
  · rintro ⟨m, hm, hme⟩
    rcases GeneralNode.follow_addChildAt_new (.mk entry []) q p root parent m h hm with
      ⟨n, hn⟩ | ⟨q2, hq, hx⟩
    · left
      obtain ⟨n2, hn2, hdata, _, _⟩ :=
        GeneralNode.follow_addChildAt_keep (.mk entry []) q p root n hn
      rw [hm] at hn2
      cases hn2
      exact ⟨n, hn, by rw [← hdata]; exact hme⟩
    · right
      cases q2 with
      | nil =>
        rw [GeneralNode.follow_nil] at hx
        cases hx
        rw [hq, ← hme]
        rfl
      | cons j q3 => simp [GeneralNode.follow_cons] at hx
  · rintro (⟨n, hn, hne⟩ | hnew)
    · obtain ⟨n2, hn2, hdata, _, _⟩ :=
        GeneralNode.follow_addChildAt_keep (.mk entry []) q p root n hn
      exact ⟨n2, hn2, by rw [hdata]; exact hne⟩
    · simp only [Prod.mk.injEq] at hnew
      obtain ⟨hq, he⟩ := hnew
      subst hq he
      exact ⟨_, GeneralNode.follow_addChildAt_child _ p root parent h, rfl⟩

/-- The effect of a call of `insert` on `size` and on what `dfs()` lists: nothing when it
throws, one more node when it returns. -/
theorem GeneralTree.insert_effect (t : GeneralTree) (entry : Entry)
    (parentId : Option String) :
    (∃ err, (t.insert entry parentId).result = .error err ∧
        (t.insert entry parentId).state = t) ∨
      ∃ r, (t.insert entry parentId).result = .ok r ∧
        (t.insert entry parentId).state.size = t.size + 1 ∧
        ((((t.insert entry parentId).state.dfs).map DfsItem.node).map NodeRef.ident).Perm
          ((t.dfs.map DfsItem.node).map NodeRef.ident ++ [r.ident]) := by
  rcases GeneralTree.insert_cases t entry parentId with
    ⟨_, hins⟩ | ⟨hroot, hins⟩ | ⟨root, ppath, parent, hroot, hfollow, hins⟩
  · left
    exact ⟨.notFound, by rw [hins], by rw [hins]⟩
  · right
    refine ⟨_, by rw [hins], by rw [hins], ?_⟩
    rw [hins, GeneralTree.dfs_eq, GeneralTree.dfs_eq, hroot]
    simp [GeneralNode.preorder, GeneralNode.preorderList, NodeRef.ident, GeneralNode.data]
  · right
    refine ⟨_, by rw [hins], by rw [hins], ?_⟩
    rw [hins, GeneralTree.dfs_eq, GeneralTree.dfs_eq, hroot]
    exact GeneralNode.preorder_ident_addChildAt entry ppath root parent hfollow

theorem GeneralTree.insertAll_coverage (calls : List (Entry × Option String)) :
    ∀ (t : GeneralTree) (acc : List NodeRef), t.size = acc.length →
      ((t.dfs.map DfsItem.node).map NodeRef.ident).Perm (acc.map NodeRef.ident) →
      (t.insertAll calls).size = (acc ++ t.inserted calls).length ∧
        (((t.insertAll calls).dfs.map DfsItem.node).map NodeRef.ident).Perm
          ((acc ++ t.inserted calls).map NodeRef.ident) := by
  induction calls with
  | nil =>
    intro t acc hs hp
    simp only [GeneralTree.insertAll, GeneralTree.inserted, List.append_nil]
    exact ⟨hs, hp⟩
  | cons c calls ih =>
    intro t acc hs hp
    obtain ⟨entry, parentId⟩ := c
    rcases GeneralTree.insert_effect t entry parentId with
      ⟨err, hres, hst⟩ | ⟨r, hres, hsize, hperm⟩
    · simp only [GeneralTree.insertAll, GeneralTree.inserted, hres, hst]
      exact ih t acc hs hp
    · simp only [GeneralTree.insertAll, GeneralTree.inserted, hres]
      have := ih (t.insert entry parentId).state (acc ++ [r])
        (by rw [hsize, hs]; simp)
        (by
          rw [List.map_append]
          exact hperm.trans (hp.append_right _))
      simpa [List.append_assoc] using this

/-- An element of a list without repetition occurs in it exactly once. -/
theorem occurs_once {α : Type} [DecidableEq α] (l : List α) (a : α) (hn : l.Nodup)
    (ha : a ∈ l) : (l.filter (fun q => decide (q = a))).length = 1 := by
  induction l with
  | nil => simp at ha
  | cons x xs ih =>
    rw [List.nodup_cons] at hn
    by_cases hxa : x = a
    · subst hxa
      have hnil : xs.filter (fun q => decide (q = x)) = [] := by
        rw [List.filter_eq_nil_iff]
        intro y hy
        simp only [decide_eq_true_eq]
        rintro rfl
        exact hn.1 hy
      simp [List.filter_cons, hnil]
    · have hmem : a ∈ xs := by
        rcases List.mem_cons.1 ha with h | h
        · exact absurd h.symm hxa
        · exact h
      simp [List.filter_cons, hxa, ih hn.2 hmem]

/-- C12: for every sequence of calls of `GeneralTree.insert` applied to an empty tree,
`size` is the number of calls that returned (a call that throws leaves the state as it
was), `dfs()` has exactly `size` elements, and the nodes returned by the calls occur in
`dfs()` exactly once each, at the path where they were linked and with their entry, and
`dfs()` has no other element. -/
theorem C12_size_and_dfs_coverage (calls : List (Entry × Option String)) :
    (GeneralTree.empty.insertAll calls).size = (GeneralTree.empty.inserted calls).length ∧
      (∀ (t : GeneralTree) (entry : Entry) (parentId : Option String) (err : TreeError),
        (t.insert entry parentId).result = .error err →
          (t.insert entry parentId).state = t) ∧
      (GeneralTree.empty.insertAll calls).dfs.length = (GeneralTree.empty.insertAll calls).size ∧
      ((GeneralTree.empty.insertAll calls).dfs.map (fun it => it.node.path)).Nodup ∧
      (((GeneralTree.empty.insertAll calls).dfs.map DfsItem.node).map NodeRef.ident).Perm
        ((GeneralTree.empty.inserted calls).map NodeRef.ident) ∧
      (∀ r ∈ GeneralTree.empty.inserted calls,
        (((GeneralTree.empty.insertAll calls).dfs.map (fun it => it.node.path)).filter
            (fun q => decide (q = r.path))).length = 1 ∧
          ∃ it ∈ (GeneralTree.empty.insertAll calls).dfs,
            it.node.path = r.path ∧ it.node.deref.data = r.deref.data) := by
  obtain ⟨hsize, hperm⟩ := GeneralTree.insertAll_coverage calls GeneralTree.empty [] rfl
    (by simp [GeneralTree.dfs_eq, GeneralTree.empty])
  simp only [List.nil_append] at hsize hperm
  have hnodup := GeneralTree.nodup_dfs_paths (GeneralTree.empty.insertAll calls)
  have hmem : ∀ r ∈ GeneralTree.empty.inserted calls,
      ∃ it ∈ (GeneralTree.empty.insertAll calls).dfs,
        it.node.path = r.path ∧ it.node.deref.data = r.deref.data := by
    intro r hr
    have h1 : r.ident ∈ (GeneralTree.empty.inserted calls).map NodeRef.ident :=
      List.mem_map.2 ⟨r, hr, rfl⟩
    rw [← hperm.mem_iff] at h1
    obtain ⟨r2, hr2, he⟩ := List.mem_map.1 h1
    obtain ⟨it, hit, rfl⟩ := List.mem_map.1 hr2
    simp only [NodeRef.ident, Prod.mk.injEq] at he
    exact ⟨it, hit, he.1, he.2⟩
  refine ⟨hsize, ?_, ?_, hnodup, hperm, ?_⟩
  · intro t entry parentId err herr
    rcases GeneralTree.insert_effect t entry parentId with ⟨_, _, hst⟩ | ⟨r, hres, _, _⟩
    · exact hst
    · rw [hres] at herr
      cases herr
  · have := hperm.length_eq
    simp only [List.length_map] at this
    rw [this, hsize]
  · intro r hr
    obtain ⟨it, hit, hp, hd⟩ := hmem r hr
    exact ⟨occurs_once _ _ hnodup (List.mem_map.2 ⟨it, hit, hp⟩), it, hit, hp, hd⟩

/-! ## Keys and entries of the binary search tree after a sequence of calls -/

theorem BinaryNode.inOrderRec_bindings (t : BinaryNode) :
    t.inOrderRec.filterMap BinaryNode.binding? = t.bindings := by
  induction t with
  | null => simp [BinaryNode.inOrderRec, BinaryNode.bindings]
  | mk k d l r ihl ihr =>
    simp [BinaryNode.inOrderRec, BinaryNode.bindings, List.filterMap_append, ihl, ihr,
      BinaryNode.binding?]

theorem BinaryNode.bindings_map_fst (t : BinaryNode) : t.bindings.map Prod.fst = t.keys := by
  induction t with
  | null => simp [BinaryNode.bindings, BinaryNode.keys]
  | mk k d l r ihl ihr => simp [BinaryNode.bindings, BinaryNode.keys, ihl, ihr]

theorem BinaryNode.mem_bindings_insertRec (q : ℚ) (entry : Entry) (t : BinaryNode)
    (h : ¬ t.onSearchPath q) (x : ℚ × Entry) :
    x ∈ (t.insertRec q entry).bindings ↔ x = (q, entry) ∨ x ∈ t.bindings := by
  induction t with
  | null => simp [BinaryNode.insertRec, BinaryNode.bindings]
  | mk k d l r ihl ihr =>
    simp only [BinaryNode.onSearchPath, not_or] at h
    obtain ⟨heq, hrest⟩ := h
    unfold BinaryNode.insertRec
    by_cases hlt : q < k
    · simp only [hlt, if_true] at hrest
      simp only [heq, hlt, if_false, if_true, BinaryNode.bindings, List.mem_append,
        List.mem_singleton, ihl hrest]
      tauto
    · simp only [hlt, if_false] at hrest
      simp only [heq, hlt, if_false, BinaryNode.bindings, List.mem_append,
        List.mem_singleton, ihr hrest]
      tauto

/-- After a sequence of calls with finite keys on an ordered tree, the tree holds what it
held before and, for every key it did not hold, the entry of the first call with that
key. -/
theorem BinarySearchTree.insertAll_bindings (calls : List (ℚ × Entry)) :
    ∀ (t : BinarySearchTree), t.root.Ordered → ∀ (k : ℚ) (d : Entry),
      (k, d) ∈ (t.insertAll (calls.map (fun c => (JSNumber.finite c.1, c.2)))).root.bindings ↔
        (k, d) ∈ t.root.bindings ∨
          (k ∉ t.root.keys ∧ calls.find? (fun c => decide (c.1 = k)) = some (k, d)) := by
  induction calls with
  | nil => intro t _ k d; simp [BinarySearchTree.insertAll]
  | cons c calls ih =>
    intro t hord k d
    obtain ⟨q, entry⟩ := c
    simp only [List.map_cons, BinarySearchTree.insertAll]
    by_cases hq : t.root.onSearchPath q
    · have hqk : q ∈ t.root.keys := (BinaryNode.onSearchPath_iff_mem_keys q t.root hord).1 hq
      rw [BinarySearchTree.insert_dup t q entry hq, ih t hord k d]
      by_cases hkq : q = k
      · subst hkq
        simp [hqk]
      · simp [List.find?_cons, hkq]
    · have hqk : q ∉ t.root.keys := fun hm =>
        hq ((BinaryNode.onSearchPath_iff_mem_keys q t.root hord).2 hm)
      rw [BinarySearchTree.insert_ok t q entry hq,
        ih ⟨t.root.insertRec q entry, t.size + 1⟩
          (BinaryNode.ordered_insertRec q entry t.root hord) k d]
      simp only [BinaryNode.mem_bindings_insertRec q entry t.root hq,
        BinaryNode.mem_keys_insertRec, Prod.mk.injEq]
      by_cases hkq : q = k
      · subst hkq
        simp only [List.find?_cons, decide_True, Option.some.injEq, Prod.mk.injEq, true_and,
          true_or, not_true_eq_false, false_and, or_false]
        constructor
        · rintro (h | h)
          · exact Or.inr ⟨hqk, h.symm⟩
          · exact Or.inl h
        · rintro (h | ⟨_, h⟩)
          · exact Or.inr h
          · exact Or.inl h.symm
      · have hkq2 : ¬ k = q := fun e => hkq e.symm
        simp [List.find?_cons, hkq, hkq2]

/-- The keys of the tree after a sequence of calls are the keys it had and the keys of the
nodes the calls returned. -/
theorem BinarySearchTree.insertAll_keys_inserted (calls : List (JSNumber × Entry)) :
    ∀ (t : BinarySearchTree), t.root.Ordered →
      (t.insertAll calls).root.keys.Perm
        (t.root.keys ++ (t.inserted calls).filterMap (fun v => v.2.key?)) := by
  induction calls with
  | nil => intro t _; simp [BinarySearchTree.insertAll, BinarySearchTree.inserted]
  | cons c calls ih =>
    intro t hord
    obtain ⟨key, entry⟩ := c
    simp only [BinarySearchTree.insertAll, BinarySearchTree.inserted]
    cases key with
    | finite q =>
      by_cases hq : t.root.onSearchPath q
      · rw [BinarySearchTree.insert_dup t q entry hq]
        exact ih t hord
      · rw [BinarySearchTree.insert_ok t q entry hq]
        simp only
        refine (ih ⟨t.root.insertRec q entry, t.size + 1⟩
          (BinaryNode.ordered_insertRec q entry t.root hord)).trans ?_
        simp only [List.filterMap_cons, BinaryNode.key?]
        refine ((BinaryNode.keys_insertRec_perm q entry t.root hq).append_right _).trans ?_
        simp only [List.cons_append]
        exact List.perm_middle.symm
    | nan => exact ih t hord
    | posInf => exact ih t hord
    | negInf => exact ih t hord

/-- C21: for every sequence of calls of `insert` with finite keys applied to an empty
tree, `inOrder()` returns nodes whose keys are strictly ascending and are exactly the keys
of the nodes returned by the calls that succeeded, that is their ascending sort; a key is
among them exactly when it was passed to some call; and every node of `inOrder()` holds
the entry passed with the first call that had its key. -/
theorem C21_inOrder_sorted_first_entry (calls : List (ℚ × Entry)) :
    BinaryNode.null ∉
        (BinarySearchTree.empty.insertAll
          (calls.map (fun c => (JSNumber.finite c.1, c.2)))).inOrder ∧
      ((BinarySearchTree.empty.insertAll
          (calls.map (fun c => (JSNumber.finite c.1, c.2)))).inOrder.filterMap
            BinaryNode.key?).Pairwise (· < ·) ∧
      ((BinarySearchTree.empty.insertAll
          (calls.map (fun c => (JSNumber.finite c.1, c.2)))).inOrder.filterMap
            BinaryNode.key?).Perm
        ((BinarySearchTree.empty.inserted
          (calls.map (fun c => (JSNumber.finite c.1, c.2)))).filterMap (fun v => v.2.key?)) ∧
      (BinarySearchTree.empty.insertAll
          (calls.map (fun c => (JSNumber.finite c.1, c.2)))).inOrder.filterMap
            BinaryNode.key? =
        ((BinarySearchTree.empty.inserted
          (calls.map (fun c => (JSNumber.finite c.1, c.2)))).filterMap
            (fun v => v.2.key?)).insertionSort (· ≤ ·) ∧
      (∀ q : ℚ,
        q ∈ (BinarySearchTree.empty.insertAll
          (calls.map (fun c => (JSNumber.finite c.1, c.2)))).inOrder.filterMap
            BinaryNode.key? ↔ q ∈ calls.map Prod.fst) ∧
      (∀ (k : ℚ) (d : Entry) (l r : BinaryNode),
        BinaryNode.mk k d l r ∈
          (BinarySearchTree.empty.insertAll
            (calls.map (fun c => (JSNumber.finite c.1, c.2)))).inOrder →
        calls.find? (fun c => decide (c.1 = k)) = some (k, d)) := by
  have hord0 : BinarySearchTree.empty.root.Ordered := by
    simp [BinarySearchTree.empty, BinaryNode.Ordered]
  have hreach := BinarySearchTree.Reachable.insertAll BinarySearchTree.Reachable.empty
    (calls.map (fun c => (JSNumber.finite c.1, c.2)))
  have hsorted := BinaryNode.keys_sorted _ hreach.ordered
  have hperm := BinarySearchTree.insertAll_keys_inserted
    (calls.map (fun c => (JSNumber.finite c.1, c.2))) BinarySearchTree.empty hord0
  have hbind := BinarySearchTree.insertAll_bindings calls BinarySearchTree.empty hord0
  simp only [BinarySearchTree.empty, BinaryNode.keys, BinaryNode.bindings, List.nil_append,
    List.not_mem_nil, false_or, not_false_eq_true, true_and] at hperm hbind
  rw [BinarySearchTree.inOrder_eq, BinaryNode.inOrderRec_keys]
  refine ⟨BinaryNode.null_not_mem_inOrderRec _, hsorted, hperm, ?_, ?_, ?_⟩
  · refine List.eq_of_perm_of_sorted (r := (· ≤ ·))
      (hperm.trans (List.perm_insertionSort _ _).symm)
      (hsorted.imp (fun hab => le_of_lt hab)) (List.sorted_insertionSort _ _)
  · intro q
    rw [← BinaryNode.bindings_map_fst, List.mem_map, List.mem_map]
    constructor
    · rintro ⟨⟨k, d⟩, hm, rfl⟩
      have hf := (hbind k d).1 hm
      have hmem := List.mem_of_find?_eq_some hf
      exact ⟨(k, d), hmem, rfl⟩
    · rintro ⟨⟨k, d⟩, hm, rfl⟩
      cases hf : calls.find? (fun c => decide (c.1 = k)) with
      | none =>
        rw [List.find?_eq_none] at hf
        exact absurd (by simp) (hf (k, d) hm)
      | some c =>
        have hk : c.1 = k := by simpa using List.find?_some hf
        obtain ⟨k2, d2⟩ := c
        simp only at hk
        subst hk
        exact ⟨(k2, d2), (hbind k2 d2).2 hf, rfl⟩
  · intro k d l r hn
    apply (hbind k d).1
    rw [← BinaryNode.inOrderRec_bindings, List.mem_filterMap]
    exact ⟨_, hn, rfl⟩

/-! ## Lookups in the general tree before and after a call of `insert` -/

theorem GeneralNode.preorderList_split (base : List Nat) (depth j : Nat)
    (pre post : List GeneralNode) (c : GeneralNode) :
    GeneralNode.preorderList base depth j (pre ++ c :: post) =
      GeneralNode.preorderList base depth j pre ++
        (c.preorder (base ++ [j + pre.length]) (depth + 1) ++
          GeneralNode.preorderList base depth (j + pre.length + 1) post) := by
  rw [GeneralNode.preorderList_append, GeneralNode.preorderList]

/-- After `addChild` at a path, the recursive preorder is the one before with the new node
put in at one place: paths, entries and order of the other nodes are kept. -/
theorem GeneralNode.preorder_addChildAt_split (entry : Entry) (p : List Nat) :
    ∀ (root parent : GeneralNode) (base : List Nat) (depth : Nat),
      root.follow p = some parent →
      ∃ l1 l2,
        ((root.preorder base depth).map DfsItem.node).map NodeRef.ident = l1 ++ l2 ∧
        (((GeneralNode.addChildAt p root (.mk entry [])).preorder base depth).map
            DfsItem.node).map NodeRef.ident =
          l1 ++ (base ++ p ++ [parent.children.length], entry) :: l2 := by
  induction p with
  | nil =>
    intro root parent base depth h
    rw [GeneralNode.follow_nil] at h
    cases h
    cases root with
    | mk d cs =>
      refine ⟨_, [], (List.append_nil _).symm, ?_⟩
      simp [GeneralNode.addChildAt, GeneralNode.preorder, GeneralNode.preorderList_append,
        GeneralNode.preorderList, NodeRef.ident, GeneralNode.data, GeneralNode.children]
  | cons i p ih =>
    intro root parent base depth h
    cases root with
    | mk d cs =>
      rw [GeneralNode.follow_cons] at h
      cases hc : cs[i]? with
      | none => rw [hc] at h; simp at h
      | some c =>
        rw [hc] at h
        simp only [Option.some_bind] at h
        have hi : i < cs.length := by
          by_contra hge
          rw [List.getElem?_eq_none (by omega)] at hc
          cases hc
        have hci : cs[i] = c := by
          rw [List.getElem?_eq_getElem hi] at hc
          exact Option.some.inj hc
        have hlen : (cs.take i).length = i := by
          rw [List.length_take]; omega
        have hsplit : cs = cs.take i ++ c :: cs.drop (i + 1) := by
          rw [← hci, ← List.drop_eq_getElem_cons hi, List.take_append_drop]
        have hmod : cs.modify (fun c => GeneralNode.addChildAt p c (.mk entry [])) i =
            cs.take i ++ GeneralNode.addChildAt p c (.mk entry []) :: cs.drop (i + 1) := by
          rw [List.modify_eq_take_cons_drop hi, hci]
        obtain ⟨l1, l2, hold, hnew⟩ := ih c parent (base ++ [i]) (depth + 1) h
        have h1 : GeneralNode.preorderList base depth 0 cs =
            GeneralNode.preorderList base depth 0 (cs.take i) ++
              (c.preorder (base ++ [i]) (depth + 1) ++
                GeneralNode.preorderList base depth (i + 1) (cs.drop (i + 1))) := by
          have := GeneralNode.preorderList_split base depth 0 (cs.take i) (cs.drop (i + 1)) c
          rw [← hsplit, hlen, Nat.zero_add] at this
          exact this
        have h2 : GeneralNode.preorderList base depth 0
            (cs.modify (fun c => GeneralNode.addChildAt p c (.mk entry [])) i) =
            GeneralNode.preorderList base depth 0 (cs.take i) ++
              ((GeneralNode.addChildAt p c (.mk entry [])).preorder (base ++ [i]) (depth + 1) ++
                GeneralNode.preorderList base depth (i + 1) (cs.drop (i + 1))) := by
          rw [hmod, GeneralNode.preorderList_split, hlen, Nat.zero_add]
        refine ⟨(base, d) ::
            (((GeneralNode.preorderList base depth 0 (cs.take i)).map DfsItem.node).map
              NodeRef.ident ++ l1),
          l2 ++ ((GeneralNode.preorderList base depth (i + 1) (cs.drop (i + 1))).map
            DfsItem.node).map NodeRef.ident, ?_, ?_⟩
        · rw [GeneralNode.preorder, h1]
          simp only [List.map_cons, List.map_append, hold, NodeRef.ident, GeneralNode.data,
            List.cons_append, List.append_assoc]
        · rw [GeneralNode.addChildAt, GeneralNode.preorder, h2]
          simp only [List.map_cons, List.map_append, hnew, NodeRef.ident, GeneralNode.data,
            List.cons_append, List.append_assoc, List.singleton_append, List.nil_append]

/-- What `findById` finds, seen as a path and an entry, is the first item of `dfs()` whose
entry has the identifier. -/
theorem GeneralTree.findById_ident (t : GeneralTree) (id : String) :
    (t.findById id).map NodeRef.ident =
      ((t.dfs.map DfsItem.node).map NodeRef.ident).find? (fun x => decide (x.2.id = id)) := by
  rw [GeneralTree.findById_eq]
  show Option.map NodeRef.ident
      (List.find? ((fun x : List Nat × Entry => decide (x.2.id = id)) ∘ NodeRef.ident)
        (t.dfs.map DfsItem.node)) = _
  exact (List.find?_map NodeRef.ident (t.dfs.map DfsItem.node)).symm

/-- A call of `insert` that returns puts the node it returns into `dfs()` at one place and
leaves the rest of `dfs()` as it was, paths, entries and order. -/
theorem GeneralTree.insert_ok_split (t : GeneralTree) (entry : Entry)
    (parentId : Option String) (r : NodeRef)
    (hok : (t.insert entry parentId).result = .ok r) :
    r.deref = .mk entry [] ∧
      (∃ newRoot, (t.insert entry parentId).state.root = some newRoot ∧
        newRoot.follow r.path = some (.mk entry [])) ∧
      ∃ l1 l2, (t.dfs.map DfsItem.node).map NodeRef.ident = l1 ++ l2 ∧
        ((t.insert entry parentId).state.dfs.map DfsItem.node).map NodeRef.ident =
          l1 ++ (r.path, entry) :: l2 := by
  rcases GeneralTree.insert_cases t entry parentId with
    ⟨_, hins⟩ | ⟨hroot, hins⟩ | ⟨root, ppath, parent, hroot, hfollow, hins⟩
  · rw [hins] at hok; cases hok
  · rw [hins] at hok ⊢
    cases hok
    refine ⟨rfl, ⟨_, rfl, GeneralNode.follow_nil _⟩, [], [], ?_, ?_⟩
    · simp [GeneralTree.dfs_eq, hroot]
    · simp [GeneralTree.dfs_eq, GeneralNode.preorder, GeneralNode.preorderList,
        NodeRef.ident, GeneralNode.data]
  · rw [hins] at hok ⊢
    cases hok
    obtain ⟨l1, l2, hold, hnew⟩ :=
      GeneralNode.preorder_addChildAt_split entry ppath root parent [] 0 hfollow
    refine ⟨rfl, ⟨_, rfl, GeneralNode.follow_addChildAt_child _ ppath root parent hfollow⟩,
      l1, l2, ?_, ?_⟩
    · rw [GeneralTree.dfs_eq, hroot]; exact hold
    · rw [GeneralTree.dfs_eq]
      simpa using hnew

/-- C22: when the identifier of the entry is the identifier of no node of the tree and
`insert(entry, parentId)` returns, then afterwards `findById(entry.id)` returns the node the
call returned, a childless node holding the entry, and for every other identifier
`findById` is absent exactly when it was absent before and otherwise returns a node at the
same path holding the same entry as before. -/
theorem C22_findById_after_insert (t : GeneralTree) (entry : Entry)
    (parentId : Option String) (r : NodeRef)
    (hfresh : ∀ root path n, t.root = some root → root.follow path = some n →
      n.data.id ≠ entry.id)
    (hok : (t.insert entry parentId).result = .ok r) :
    (t.insert entry parentId).state.findById entry.id = some r ∧
      r.deref = .mk entry [] ∧
      ∀ id, id ≠ entry.id →
        (((t.insert entry parentId).state.findById id = none ↔ t.findById id = none) ∧
          ∀ old, t.findById id = some old →
            ∃ found, (t.insert entry parentId).state.findById id = some found ∧
              found.path = old.path ∧ found.deref.data = old.deref.data) := by
  obtain ⟨hderef, ⟨newRoot, hnewRoot, hfollowNew⟩, l1, l2, hold, hnew⟩ :=
    GeneralTree.insert_ok_split t entry parentId r hok
  have hfreshList : ∀ x ∈ l1 ++ l2, ¬ x.2.id = entry.id := by
    intro x hx
    rw [← hold, GeneralTree.dfs_eq] at hx
    cases hroot : t.root with
    | none => rw [hroot] at hx; simp at hx
    | some root =>
      rw [hroot] at hx
      obtain ⟨q, e⟩ := x
      obtain ⟨m, hm, hme⟩ := (GeneralNode.mem_preorder_ident root q e).1 hx
      have := hfresh root q m hroot hm
      rw [hme] at this
      exact this
  refine ⟨?_, hderef, ?_⟩
  · have hfind := GeneralTree.findById_ident (t.insert entry parentId).state entry.id
    rw [hnew, List.find?_append] at hfind
    have hl1 : l1.find? (fun x => decide (x.2.id = entry.id)) = none := by
      rw [List.find?_eq_none]
      intro x hx
      simpa using hfreshList x (List.mem_append_left _ hx)
    rw [hl1] at hfind
    simp only [Option.none_or, List.find?_cons, decide_True] at hfind
    cases hf : (t.insert entry parentId).state.findById entry.id with
    | none => rw [hf] at hfind; simp at hfind
    | some found =>
      rw [hf] at hfind
      simp only [Option.map_some', NodeRef.ident, Option.some.injEq, Prod.mk.injEq] at hfind
      obtain ⟨hpath, _⟩ := hfind
      obtain ⟨hfol, _⟩ :=
        GeneralTree.findById_some _ newRoot hnewRoot entry.id found hf
      rw [hpath, hfollowNew] at hfol
      obtain ⟨fpath, fderef⟩ := found
      obtain ⟨rpath, rderef⟩ := r
      simp only at hpath hfol hderef
      simp only [Option.some.injEq] at hfol
      rw [hpath, ← hfol, hderef]
  · intro id hid
    have hsame : ((t.insert entry parentId).state.findById id).map NodeRef.ident =
        (t.findById id).map NodeRef.ident := by
      rw [GeneralTree.findById_ident, GeneralTree.findById_ident, hnew, hold]
      have hne : ¬ entry.id = id := fun e => hid e.symm
      simp [List.find?_append, List.find?_cons, hne]
    constructor
    · constructor
      · intro h
        rw [h] at hsame
        cases ho : t.findById id with
        | none => rfl
        | some old => rw [ho] at hsame; simp at hsame
      · intro h
        rw [h] at hsame
        cases hn : (t.insert entry parentId).state.findById id with
        | none => rfl
        | some found => rw [hn] at hsame; simp at hsame
    · intro old ho
      rw [ho] at hsame
      cases hn : (t.insert entry parentId).state.findById id with
      | none => rw [hn] at hsame; simp at hsame
      | some found =>
        rw [hn] at hsame
        simp only [Option.map_some', NodeRef.ident, Option.some.injEq, Prod.mk.injEq] at hsame
        exact ⟨found, rfl, hsame.1, hsame.2⟩

theorem C22_findById_after_insert_witness :
    (∀ root path n, (GeneralTree.mk (some (.mk (sampleEntry "g1") [])) 1).root = some root →
        root.follow path = some n → n.data.id ≠ (sampleEntry "g2").id) ∧
      ((GeneralTree.mk (some (.mk (sampleEntry "g1") [])) 1).insert (sampleEntry "g2")
        none).result = .ok ⟨[0], .mk (sampleEntry "g2") []⟩ ∧
      ((GeneralTree.mk (some (.mk (sampleEntry "g1") [])) 1).insert (sampleEntry "g2")
        none).state.findById (sampleEntry "g2").id = some ⟨[0], .mk (sampleEntry "g2") []⟩ := by
  have hfresh : ∀ root path n,
      (GeneralTree.mk (some (.mk (sampleEntry "g1") [])) 1).root = some root →
        root.follow path = some n → n.data.id ≠ (sampleEntry "g2").id := by
    intro root path n hroot h
    cases hroot
    cases path with
    | nil =>
      rw [GeneralNode.follow_nil] at h
      cases h
      decide
    | cons i p => simp [GeneralNode.follow_cons] at h
  exact ⟨hfresh, rfl,
    (C22_findById_after_insert (GeneralTree.mk (some (.mk (sampleEntry "g1") [])) 1)
      (sampleEntry "g2") none ⟨[0], .mk (sampleEntry "g2") []⟩ hfresh rfl).1⟩

end TreesJS
